import Mathlib

/-!
# Verification of the openapi-merger reference/include resolution engine

This file embeds the core of the openapi-merger repository in Lean 4:
the recursive reference/include resolution and component-deduplication
engine of `merger.js`, together with the YAML/HTTP collaborators of
`yaml.js` and `http.js`.  Collaborator modules that are not part of the
repository snapshot (`components.js`, `util.js`, `ref.js`) are modelled
from the specification; each such definition carries a doc comment
starting with "Modelled from the spec:".

Documents are generic YAML/JSON trees: mappings with insertion-ordered
keys, sequences, and scalars.  The special `IncludedArray` species of
arrays used by the engine is a distinct constructor `iarr`.

All definitions are structurally recursive (recursions that are
unbounded in the source carry explicit fuel), so every function in the
model evaluates inside the kernel on concrete inputs.  String
operations are implemented over character lists for the same reason.
-/

/-!
## Kernel-computable string helpers
-/

/-- The first string starts with the second. -/
def strStarts (s pre : String) : Bool := pre.toList.isPrefixOf s.toList

/-- The first string ends with the second. -/
def strEnds (s suf : String) : Bool := suf.toList.isSuffixOf s.toList

/-- Split a character list at every occurrence of a separator. -/
def splitCharAux (sep : Char) : List Char → List Char → List (List Char)
  | [], acc => [acc.reverse]
  | c :: rest, acc =>
    if c = sep then acc.reverse :: splitCharAux sep rest []
    else splitCharAux sep rest (c :: acc)

/-- Split a string at every occurrence of a separator character
(`splitOn` behaviour for one-character separators). -/
def splitChar (sep : Char) (s : String) : List String :=
  (splitCharAux sep s.toList []).map String.mk

/-- The part of the string strictly before the first occurrence of the
separator (the whole string when the separator is absent). -/
def strTakeUntil (sep : Char) (s : String) : String :=
  String.mk (s.toList.takeWhile fun c => c != sep)

/-- The part of the string from the first occurrence of the separator
on (empty when the separator is absent). -/
def strDropUntil (sep : Char) (s : String) : String :=
  String.mk (s.toList.dropWhile fun c => c != sep)

/-- Whether the string contains the character. -/
def strHasChar (s : String) (c : Char) : Bool := s.toList.contains c

/-- Parse a decimal numeral (the JavaScript array-index keys). -/
def strToNat? (s : String) : Option Nat :=
  if s.toList.isEmpty then none
  else if s.toList.all Char.isDigit then
    some (s.toList.foldl (fun n c => n * 10 + (c.toNat - 48)) 0)
  else none

/-- Decimal digits of a natural number, accumulator-based and fueled so
that it evaluates structurally. -/
def natToStrAux : Nat → Nat → List Char → List Char
  | 0, _, acc => acc
  | fuel + 1, n, acc =>
    let d := Char.ofNat (48 + n % 10)
    if n < 10 then d :: acc else natToStrAux fuel (n / 10) (d :: acc)

/-- Decimal rendering of a natural number. -/
def natToStr (n : Nat) : String := String.mk (natToStrAux (n + 1) n [])

/-!
## The document data model
-/

/-- A YAML/JSON document node.  `map` keeps keys in insertion order, as
JavaScript objects do.  `iarr` is the `IncludedArray` subclass of Array
used by the engine to tag sequences produced by an include directive. -/
inductive Doc where
  | null : Doc
  | bool : Bool → Doc
  | num : Int → Doc
  | str : String → Doc
  | arr : List Doc → Doc
  | iarr : List Doc → Doc
  | map : List (String × Doc) → Doc
deriving Repr

namespace Doc

/-- lodash `isObject`: mappings and arrays (of either species) are objects. -/
def isObject : Doc → Bool
  | map _ => true
  | arr _ => true
  | iarr _ => true
  | _ => false

/-- lodash `isArray`: true for both array species. -/
def isArrayLike : Doc → Bool
  | arr _ => true
  | iarr _ => true
  | _ => false

/-- True only for the `IncludedArray` species (`instanceof IncludedArray`). -/
def isIncludedArray : Doc → Bool
  | iarr _ => true
  | _ => false

/-- The elements of an array of either species (empty for non-arrays). -/
def elems : Doc → List Doc
  | arr xs => xs
  | iarr xs => xs
  | _ => []

/-- `Object.entries`: key/value pairs of a mapping, or index/element
pairs (with stringified indices) of an array. -/
def entries : Doc → List (String × Doc)
  | map kvs => kvs
  | arr xs => xs.enum.map fun p => (natToStr p.1, p.2)
  | iarr xs => xs.enum.map fun p => (natToStr p.1, p.2)
  | _ => []

/-- `Object.keys`. -/
def keys : Doc → List String
  | map kvs => kvs.map Prod.fst
  | arr xs => xs.enum.map fun p => natToStr p.1
  | iarr xs => xs.enum.map fun p => natToStr p.1
  | _ => []

/-- JavaScript property read `o[k]`: mapping lookup, or array indexing
when the key parses as a number.  `none` plays the role of `undefined`. -/
def getKey : Doc → String → Option Doc
  | map kvs, k => kvs.lookup k
  | arr xs, k => strToNat? k >>= fun i => xs[i]?
  | iarr xs, k => strToNat? k >>= fun i => xs[i]?
  | _, _ => none

/-- Replace the value of an existing key in an association list, keeping
its position; append the key if it is absent (JavaScript object update). -/
def setAssoc (kvs : List (String × Doc)) (k : String) (v : Doc) :
    List (String × Doc) :=
  match kvs with
  | [] => [(k, v)]
  | (k0, v0) :: rest =>
    if k0 = k then (k0, v) :: rest else (k0, v0) :: setAssoc rest k v

/-- Write into a list at an index, padding with `null` beyond the end
(JavaScript array index assignment). -/
def setElem (xs : List Doc) (i : Nat) (v : Doc) : List Doc :=
  match xs, i with
  | [], 0 => [v]
  | [], n + 1 => null :: setElem [] n v
  | _ :: rest, 0 => v :: rest
  | x :: rest, n + 1 => x :: setElem rest n v

/-- JavaScript property write `o[k] = v`.  On an array a non-numeric key
is dropped (such a property is invisible to every later operation the
engine performs). -/
def setKey : Doc → String → Doc → Doc
  | map kvs, k, v => map (setAssoc kvs k v)
  | arr xs, k, v =>
    match strToNat? k with
    | some i => arr (setElem xs i v)
    | none => arr xs
  | iarr xs, k, v =>
    match strToNat? k with
    | some i => iarr (setElem xs i v)
    | none => iarr xs
  | d, _, _ => d

/-- JavaScript `delete o[k]`: removes a mapping key (other keys keep
their order); on an array it leaves a hole, modelled as `null`. -/
def deleteKey : Doc → String → Doc
  | map kvs, k => map (kvs.filter fun kv => kv.1 ≠ k)
  | arr xs, k =>
    match strToNat? k with
    | some i => arr (setElem xs i null)
    | none => arr xs
  | iarr xs, k =>
    match strToNat? k with
    | some i => iarr (setElem xs i null)
    | none => iarr xs
  | d, _ => d

/-- The string value of a scalar node (directive targets are strings). -/
def asString : Doc → String
  | str s => s
  | _ => ""

end Doc

mutual

/-- Structural size of a document, used for termination measures. -/
def Doc.size : Doc → Nat
  | .map kvs => 1 + Doc.sizeKVs kvs
  | .arr xs => 1 + Doc.sizeList xs
  | .iarr xs => 1 + Doc.sizeList xs
  | _ => 1

/-- Total size of a list of documents. -/
def Doc.sizeList : List Doc → Nat
  | [] => 0
  | d :: rest => 1 + d.size + Doc.sizeList rest

/-- Total size of the values of an association list. -/
def Doc.sizeKVs : List (String × Doc) → Nat
  | [] => 0
  | (_, d) :: rest => 1 + d.size + Doc.sizeKVs rest

end

/-!
## Locator: URL/path parsing and resolution

`parseUrl` lives in `util.js`, which is not part of the snapshot; it is
modelled from the specification of the Locator (§4.1).  `posixDirname`,
`posixJoin` and `urlResolve` model the external node `path`/`url`
library functions used by `merger.js`.
-/

/-- Modelled from the spec: `parseUrl` of util.js (not in src/)
normalizes a target string into its scheme-aware parts: the part before
the fragment, the `#...` fragment itself (empty when absent), whether
the target is an absolute network URL, and whether it is an in-document
pointer. -/
structure PUrl where
  href : String
  hrefWoHash : String
  hash : String
  isHttp : Bool
  isLocal : Bool
  path : String
deriving Repr

/-- Modelled from the spec: the Locator parse of a target string. -/
def parseUrl (s : String) : PUrl :=
  let woHash := strTakeUntil '#' s
  { href := s
    hrefWoHash := woHash
    hash := strDropUntil '#' s
    isHttp := strStarts s "http://" || strStarts s "https://"
    isLocal := strStarts s "#"
    path := woHash }

/-- Normalize a list of path segments, resolving `.` and `..` (model of
the node posix path normalization).  `abs` records whether the path is
absolute, in which case `..` at the root is dropped. -/
def joinSegs (abs : Bool) : List String → List String → List String
  | acc, [] => acc.reverse
  | acc, s :: rest =>
    if s = "" || s = "." then joinSegs abs acc rest
    else if s = ".." then
      match acc with
      | [] => if abs then joinSegs abs [] rest else joinSegs abs [".."] rest
      | t :: acc' =>
        if t = ".." then joinSegs abs (s :: t :: acc') rest
        else joinSegs abs acc' rest
    else joinSegs abs (s :: acc) rest

/-- Model of node `path.posix.join` restricted to two arguments. -/
def posixJoin (a b : String) : String :=
  let abs := strStarts a "/"
  let segs := joinSegs abs [] (splitChar '/' a ++ splitChar '/' b)
  let core := String.intercalate "/" segs
  if abs then "/" ++ core
  else if core = "" then "." else core

/-- Model of node `path.posix.dirname`. -/
def posixDirname (s : String) : String :=
  let parts := splitChar '/' s
  if parts.length ≤ 1 then "."
  else
    let core := String.intercalate "/" parts.dropLast
    if core = "" then "/" else core

/-- Model of node `url.resolve base val` as used by the engine: an
absolute URL passes through, a relative path is joined onto the base
URL path, keeping the scheme. -/
def urlResolve (base val : String) : String :=
  if strStarts val "http://" || strStarts val "https://" then val
  else
    let scheme :=
      if strStarts base "https://" then "https://"
      else if strStarts base "http://" then "http://" else ""
    scheme ++ posixJoin (base.drop scheme.length) val

/-- Model of node `path.relative` as used on glob matches: strip the
base directory. -/
def pathRelative (base p : String) : String :=
  if strStarts p (base ++ "/") then p.drop (base.length + 1) else p

/-- Model of node `path.basename(p, path.extname(p))`: the last path
segment with its extension stripped. -/
def basenameNoExt (p : String) : String :=
  let base := (splitChar '/' p).getLastD ""
  let parts := splitChar '.' base
  if parts.length ≤ 1 then base
  else if parts.headD "" = "" && parts.length = 2 then base
  else String.intercalate "." parts.dropLast

/-!
## Fragment slicing
-/

/-- Follow a pointer path into a document, yielding `null` when a
segment is absent. -/
def walkPtr : Doc → List String → Doc
  | d, [] => d
  | d, k :: rest =>
    match d.getKey k with
    | some v => walkPtr v rest
    | none => Doc.null

/-- Modelled from the spec: `sliceObject` of util.js (not in src/)
slices a document by a URL fragment: an empty fragment (or the bare
root pointers) yields the whole document, a pointer fragment `#/a/b` is
followed into the document, and anything else yields `null`. -/
def sliceObject (d : Doc) (hash : String) : Doc :=
  if hash = "" || hash = "#" || hash = "#/" then d
  else if strStarts hash "#/" then walkPtr d (splitChar '/' (hash.drop 2))
  else Doc.null

/-!
## Merge primitives

The deep merges recurse through nested mappings; the recursion is
expressed with generic single-level folds plus a fueled dispatcher so
that everything stays structurally recursive.
-/

/-- Merge one key into an association list using the given recursive
merge: an existing entry keeps its position and is combined with `mrg`,
a new key is appended. -/
def insertWith (mrg : Doc → Doc → Doc) :
    List (String × Doc) → String → Doc → List (String × Doc)
  | [], k, bv => [(k, bv)]
  | (k0, v0) :: rest, k, bv =>
    if k0 = k then (k0, mrg v0 bv) :: rest
    else (k0, v0) :: insertWith mrg rest k bv

/-- Fold the right association list into the left one, key by key. -/
def foldKVs (mrg : Doc → Doc → Doc) (as bs : List (String × Doc)) :
    List (String × Doc) :=
  bs.foldl (fun acc kv => insertWith mrg acc kv.1 kv.2) as

/-- Index-wise merge of two element lists using the given recursive
merge, the excess of the longer list kept. -/
def mergeListWith (mrg : Doc → Doc → Doc) : List Doc → List Doc → List Doc
  | as, [] => as
  | [], bs => bs
  | a :: as, b :: bs => mrg a b :: mergeListWith mrg as bs

/-- Modelled from the spec: the two-argument core of `mergeOrOverwrite`
of util.js (not in src/): mappings merge recursively key by key with
the later value winning at non-object leaves, sequences merge by
concatenation (keeping the species of the first), and any other
combination is overwritten by the later value.  The fuel (an artifact
of the embedding, always ample in use) bounds the nesting depth the
merge descends through; exhausted fuel falls back to the later value. -/
def mowDoc : Nat → Doc → Doc → Doc
  | 0, _, b => b
  | fuel + 1, a, b =>
    match a, b with
    | Doc.map as, Doc.map bs => Doc.map (foldKVs (mowDoc fuel) as bs)
    | Doc.arr as, Doc.arr bs => Doc.arr (as ++ bs)
    | Doc.arr as, Doc.iarr bs => Doc.arr (as ++ bs)
    | Doc.iarr as, Doc.arr bs => Doc.iarr (as ++ bs)
    | Doc.iarr as, Doc.iarr bs => Doc.iarr (as ++ bs)
    | _, b => b

/-- Modelled from the spec: `mergeOrOverwrite` of util.js as called by
the engine, `x[k] = mergeOrOverwrite(x[k], v)`: an absent (`undefined`)
current value is replaced by the later value. -/
def mergeOrOverwrite (fuel : Nat) : Option Doc → Doc → Doc
  | none, b => b
  | some a, b => mowDoc fuel a b

/-- Model of the external lodash `merge` as used by the engine: source
keys are merged into the destination recursively; two mappings merge
key by key (existing keys keep their position, new keys are appended),
two sequences merge index-wise with the excess of the longer one kept,
and anything else is overwritten by the source value.  The fuel (an
artifact of the embedding, always ample in use) bounds the nesting
depth the merge descends through. -/
def lodashMerge : Nat → Doc → Doc → Doc
  | 0, _, b => b
  | fuel + 1, a, b =>
    match a, b with
    | Doc.map as, Doc.map bs => Doc.map (foldKVs (lodashMerge fuel) as bs)
    | Doc.arr as, Doc.arr bs => Doc.arr (mergeListWith (lodashMerge fuel) as bs)
    | Doc.arr as, Doc.iarr bs => Doc.arr (mergeListWith (lodashMerge fuel) as bs)
    | Doc.iarr as, Doc.arr bs => Doc.iarr (mergeListWith (lodashMerge fuel) as bs)
    | Doc.iarr as, Doc.iarr bs => Doc.iarr (mergeListWith (lodashMerge fuel) as bs)
    | _, b => b

/-!
## Include post-processor collaborators and configuration
-/

/-- Per-class include configuration (externally supplied): an optional
key filter predicate, and optional key prefix (`prefixVal`, the
`prefix` field of the configuration) and key suffix strings. -/
structure ClassConfig where
  filter : Option (String → Bool) := none
  prefixVal : Option String := none
  suffix : Option String := none

/-- The engine configuration: `includeCfg` is the `include` section
mapping class names to their `ClassConfig`. -/
structure Config where
  includeCfg : List (String × ClassConfig) := []

/-- Modelled from the spec: `filterObject` of util.js (not in src/)
keeps only the top-level mapping keys accepted by the configured
predicate; with no filter configured, content passes through. -/
def filterObject (d : Doc) (f : Option (String → Bool)) : Doc :=
  match d, f with
  | Doc.map kvs, some p => Doc.map (kvs.filter fun kv => p kv.1)
  | _, _ => d

/-- Modelled from the spec: `appendObjectKeys` of util.js (not in
src/), called with the configured key prefix, attaches it in front of
every top-level key; no configured value passes through. -/
def appendObjectKeys (d : Doc) (p : Option String) : Doc :=
  match d, p with
  | Doc.map kvs, some s => Doc.map (kvs.map fun kv => (s ++ kv.1, kv.2))
  | _, _ => d

/-- Modelled from the spec: `prependObjectKeys` of util.js (not in
src/), called with the configured key suffix, attaches it after every
top-level key; no configured value passes through. -/
def prependObjectKeys (d : Doc) (s : Option String) : Doc :=
  match d, s with
  | Doc.map kvs, some t => Doc.map (kvs.map fun kv => (kv.1 ++ t, kv.2))
  | _, _ => d

/-!
## Directive grammar
-/

/-- A word character of the regex class `\w`. -/
def isWordChar (c : Char) : Bool := c.isAlphanum || c = '_'

/-- True when the string is nonempty and all word characters. -/
def isWord (s : String) : Bool := !s.toList.isEmpty && s.toList.all isWordChar

namespace Merger

/-- The groups of a match of `Merger.INCLUDE_PATTERN`, the regex of
merger.js line 15 (`$include`, optional `#` fragment of word
characters, optional `.` class of word characters, anchored): the
optional fragment selector (with its leading hash) and the optional
class suffix (with its leading dot); `none` when the key does not
match the pattern. -/
def matchIncludeKey (key : String) : Option (Option String × Option String) :=
  if strStarts key "$include" then
    let rest := key.drop 8
    if rest = "" then some (none, none)
    else if strStarts rest "#" then
      match splitChar '.' (rest.drop 1) with
      | [frag] => if isWord frag then some (some ("#" ++ frag), none) else none
      | [frag, cls] =>
        if isWord frag && isWord cls then
          some (some ("#" ++ frag), some ("." ++ cls))
        else none
      | _ => none
    else if strStarts rest "." then
      let cls := rest.drop 1
      if isWord cls then some (none, some ("." ++ cls)) else none
    else none
  else none

/-- `Merger.isInclude`: the key matches the include-directive pattern. -/
def isInclude (key : String) : Bool := (matchIncludeKey key).isSome

/-- `Merger.isRef`: the key is the reserved `$ref` marker, or the node
is a discriminator mapping (every key of such a node is a reference). -/
def isRef (key : String) (jsonPath : String) : Bool :=
  key = "$ref" || strEnds jsonPath "discriminator.mapping"

end Merger

/-- `getIncludeClass` of merger.js: the class suffix of an include key,
without its leading dot. -/
def getIncludeClass (key : String) : Option String :=
  match Merger.matchIncludeKey key with
  | some (_, some pat) => some (pat.drop 1)
  | _ => none

/-- Modelled from the spec: `getRefType` of ref.js (not in src/)
derives the component class from the JSON path of the node containing
the reference: entries of a discriminator mapping get the inline
pseudo-class "mapping"; every other reference is grouped under the
"schemas" class. -/
def getRefType (jsonPath : String) : String :=
  if strEnds jsonPath "discriminator.mapping" then "mapping" else "schemas"

/-- Modelled from the spec: `shouldInclude` of ref.js (not in src/) -
reference types marked inline (discriminator mappings) are treated as
inclusions instead of component references. -/
def shouldInclude (refType : String) : Bool := refType = "mapping"

/-- `processInclude` of merger.js: applies per-class filtering and key
renaming to content pulled in by a classed include directive.  Warnings
surfaced through the logger are returned alongside the document. -/
def processInclude (key : String) (obj : Doc) (config : Config) :
    Doc × List String :=
  match getIncludeClass key with
  | none => (obj, [])
  | some clazz =>
    match config.includeCfg.lookup clazz with
    | none =>
      (obj, ["$include classname " ++ clazz ++
        " specified, but no configuration found."])
    | some cc =>
      let o1 := filterObject obj cc.filter
      let o2 := appendObjectKeys o1 cc.prefixVal
      let o3 := prependObjectKeys o2 cc.suffix
      (o3, [])

/-!
## External world, fetch collaborator (http.js) and load collaborator (yaml.js)
-/

/-- Outcome of one network fetch of a URL. -/
inductive FetchOutcome where
  | transportError : FetchOutcome
  | badStatus : Nat → FetchOutcome
  | ok : Doc → FetchOutcome

/-- The external world of a run: the local filesystem (absolute posix
path to parsed document), the network (URL to fetch outcome, already
parsed - body parsing is an external collaborator), and the glob
expander (pattern to matched paths). -/
structure Univ where
  fs : List (String × Doc) := []
  net : List (String × FetchOutcome) := []
  glob : List (String × List String) := []

/-- The URL cache of http.js: a module-scoped table from URL to parsed
document.  It is created once per process, not per merge invocation. -/
def Cache : Type := List (String × Doc)

/-- The empty cache a process starts with. -/
def Cache.empty : Cache := []

/-- `download` of http.js: the cache is consulted first (a cache hit
returns a deep clone of the stored document, which in this value-level
model is the document value itself); a transport error or non-success
status logs the failure and returns an empty mapping without caching;
a success stores the parsed body in the cache and returns a clone. -/
def download (u : Univ) (cache : Cache) (url : String) : Doc × Cache :=
  match List.lookup url cache with
  | some d => (d, cache)
  | none =>
    match u.net.lookup url with
    | some (.ok d) => (d, (url, d) :: cache)
    | _ => (Doc.map [], cache)

/-- `readYAML` of yaml.js: read and parse a local file; a missing file
raises, modelled as the error case (fatal to the merge). -/
def readYAML (u : Univ) (filePath : String) : Except String Doc :=
  match u.fs.lookup filePath with
  | some d => .ok d
  | none => .error ("ENOENT: no such file " ++ filePath)

/-- The document the network would deliver for a URL, if any. -/
def fetchDoc (u : Univ) (url : String) : Option Doc :=
  match u.net.lookup url with
  | some (.ok d) => some d
  | _ => none

/-- A cache is consistent with the world when every entry stores
exactly the document a fresh fetch of its URL would deliver. -/
def Consistent (u : Univ) (cache : Cache) : Prop :=
  ∀ url d, List.lookup url cache = some d → fetchDoc u url = some d

/-!
## Component registry and name resolver (components.js, spec-modelled)
-/

/-- Modelled from the spec: one deduplicated component (components.js
is not in src/): its class, its absolute target key, and its content. -/
structure Component where
  clazz : String
  key : String
  content : Doc

/-- Modelled from the spec: the candidate component name derived from
the target - the last path segment before any fragment (§4.3). -/
def candidateName (key : String) : String :=
  (splitChar '/' (strTakeUntil '#' key)).getLastD ""

/-- The longest length among a list of strings. -/
def maxStrLen (l : List String) : Nat :=
  (l.map String.length).foldr max 0

/-- Auxiliary loop of the name resolver: append the disambiguating
suffix until the name is not yet used (the fuel is sized so that it
never runs out: each step lengthens the candidate, and a candidate
longer than every used name is necessarily fresh). -/
def freshNameFrom : Nat → List String → String → String
  | 0, _, cand => cand
  | fuel + 1, used, cand =>
    if used.contains cand then freshNameFrom fuel used (cand ++ "1")
    else cand

/-- Modelled from the spec: disambiguation of a candidate name - keep
the candidate when it is unused, otherwise apply the deterministic
numeric disambiguating suffix repeatedly until the name is unique
within the class (§4.3). -/
def freshName (used : List String) (cand : String) : String :=
  freshNameFrom (maxStrLen used + 1) used cand

/-- One registration step of the name resolver: assign the next
component a name fresh among the names already assigned in its class. -/
def resolveStep (acc : List ((String × String) × String)) (c : Component) :
    List ((String × String) × String) :=
  let used := (acc.filter fun e => e.1.1 = c.clazz).map fun e => e.2
  acc ++ [((c.clazz, c.key), freshName used (candidateName c.key))]

/-- Modelled from the spec: the ComponentNameResolver assigns each
registered component a final name from the complete first-pass
snapshot.  Classes are treated independently; within a class the
first-registered target keeps its candidate name and later conflicting
targets receive the deterministic numeric suffix. -/
def resolveNames (comps : List Component) : List ((String × String) × String) :=
  comps.foldl resolveStep []

/-- Modelled from the spec: the pass-scoped ComponentManager - the
registry of components in first-registration order, plus the name
assignment computed by the resolver (absent during the first pass). -/
structure ComponentManager where
  components : List Component := []
  resolver : Option (List ((String × String) × String)) := none

/-- Modelled from the spec: `exists(key)` - a component for this key
was already created in the current pass. -/
def ComponentManager.existsKey (m : ComponentManager) (key : String) : Bool :=
  m.components.any fun c => c.key = key

/-- Modelled from the spec: `get(key)` - the component registered for
this key, if any. -/
def ComponentManager.get (m : ComponentManager) (key : String) :
    Option Component :=
  m.components.find? fun c => c.key = key

/-- The final name of a component: the resolver assignment when one is
installed (second pass), the raw candidate name otherwise. -/
def ComponentManager.nameOf (m : ComponentManager) (c : Component) : String :=
  match m.resolver with
  | none => candidateName c.key
  | some names => (names.lookup (c.clazz, c.key)).getD (candidateName c.key)

/-- Modelled from the spec: `getLocalRef` - the canonical local pointer
of a component, into the shared components section. -/
def ComponentManager.getLocalRef (m : ComponentManager) (c : Component) :
    String :=
  "#/components/" ++ c.clazz ++ "/" ++ m.nameOf c

/-- Modelled from the spec: `getOrCreate(class, key)` - return the
component already registered for this class and key, or create and
register one, its content fetched from the absolute target (network
targets through the download cache, local targets through the YAML
loader, which is fatal on a missing file) and sliced by the target
fragment. -/
def ComponentManager.getOrCreate (u : Univ) (m : ComponentManager)
    (cache : Cache) (clazz key : String) :
    Except String (Component × ComponentManager × Cache) :=
  match m.components.find? (fun c => c.clazz = clazz && c.key = key) with
  | some c => .ok (c, m, cache)
  | none =>
    let pk := parseUrl key
    if pk.isHttp then
      let (raw, cache') := download u cache pk.hrefWoHash
      let c : Component := ⟨clazz, key, sliceObject raw pk.hash⟩
      .ok (c, ⟨m.components ++ [c], m.resolver⟩, cache')
    else
      match readYAML u pk.hrefWoHash with
      | .error e => .error e
      | .ok raw =>
        let c : Component := ⟨clazz, key, sliceObject raw pk.hash⟩
        .ok (c, ⟨m.components ++ [c], m.resolver⟩, cache)

/-- Modelled from the spec: store the recursively resolved content of
the component registered under (class, key) - the engine assigns
`cmp.content` in place. -/
def ComponentManager.setContent (m : ComponentManager) (clazz key : String)
    (d : Doc) : ComponentManager :=
  ⟨m.components.map fun c =>
      if c.clazz = clazz && c.key = key then ⟨c.clazz, c.key, d⟩ else c,
    m.resolver⟩

/-- One step of assembling the components section: place one component
under its class and assigned name. -/
def sectionInsert (m : ComponentManager) (acc : Doc) (c : Component) : Doc :=
  let inner := (acc.getKey c.clazz).getD (Doc.map [])
  acc.setKey c.clazz (inner.setKey (m.nameOf c) c.content)

/-- Modelled from the spec: `getComponentsSection` - the shared output
section: each class, in first-registration order, maps to the mapping
from assigned component name to resolved content. -/
def ComponentManager.getComponentsSection (m : ComponentManager) : Doc :=
  m.components.foldl (sectionInsert m) (Doc.map [])

/-!
## The resolution engine (merger.js)

The recursion of `mergeRefs`/`handleRef`/`handleInclude` is unbounded
on the input graph (targets load new documents), so the walker is
fueled: `Res.fuelOut` reports fuel exhaustion, `Res.fatal` a fatal
error propagated to the caller, mirroring a thrown exception.  Fuel
decreases at every internal call, making the recursion structural.
-/

/-- Result of a fueled evaluation: out of fuel, a fatal error aborting
the whole merge, or a value. -/
inductive Res (α : Type) where
  | fuelOut : Res α
  | fatal : String → Res α
  | ok : α → Res α
deriving Repr

instance : Monad Res where
  pure := Res.ok
  bind := fun r f =>
    match r with
    | .fuelOut => .fuelOut
    | .fatal e => .fatal e
    | .ok a => f a

/-- The mutable fields of the Merger instance threaded through the
walk: `this.manager` and the module-scoped download cache. -/
structure MState where
  manager : ComponentManager
  cache : Cache

/-- Lines 209-224 of merger.js `handleInclude`: combine the resolved
include content `merged` with the destination `obj`.  A sequence
concatenates onto a sequence destination, turns a destination whose
only key is the directive into an `IncludedArray`, and is a fatal
structural error for every other destination; a mapping is
post-processed, deep-merged into the destination (lodash `merge`), and
the directive key deleted.  The returned flag records whether the
changes happened in place on `obj` (true) or by rebinding to a fresh
value (false), which decides what a caller that ignores the returned
value observes. -/
def includeMergeStep (cfg : Config) (fuel : Nat) (obj : Doc)
    (key v jsonPath : String) (merged : Doc) : Except String (Doc × Bool) :=
  if merged.isArrayLike then
    match obj with
    | Doc.arr xs => .ok (Doc.arr (xs ++ merged.elems), false)
    | Doc.iarr xs => .ok (Doc.iarr (xs ++ merged.elems), false)
    | _ =>
      if obj.keys.length = 1 then .ok (Doc.iarr merged.elems, false)
      else .error ("cannot merge array content object. $include: " ++ v ++
        " at jsonPath=" ++ jsonPath)
  else
    let processed := (processInclude key merged cfg).1
    .ok ((lodashMerge fuel obj processed).deleteKey key, true)

mutual

/-- `Merger.mergeRefs` (merger.js lines 57-79): recursively merge
remote/URL references and inclusions in an object or array.  Non-object
values pass through; otherwise a fresh object or array is built by
walking the entries in stored order. -/
def Merger.mergeRefs (u : Univ) (cfg : Config) :
    Nat → MState → Doc → String → String → Res (Doc × MState)
  | 0, _, _, _, _ => .fuelOut
  | fuel + 1, st, obj, file, jsonPath =>
    if !obj.isObject then .ok (obj, st)
    else
      let ret0 := if obj.isArrayLike then Doc.arr [] else Doc.map []
      Merger.mergeRefsLoop u cfg fuel st ret0 obj.entries file jsonPath

/-- The entry loop of `Merger.mergeRefs` (lines 62-77): dispatch each
key to `handleRef`/`handleInclude`, or recurse into a plain value and
merge the result back (an `IncludedArray` merged into an array
destination is concatenated). -/
def Merger.mergeRefsLoop (u : Univ) (cfg : Config) :
    Nat → MState → Doc → List (String × Doc) → String → String →
    Res (Doc × MState)
  | 0, _, _, _, _, _ => .fuelOut
  | _ + 1, st, ret, [], _, _ => .ok (ret, st)
  | fuel + 1, st, ret, (key, val) :: rest, file, jsonPath =>
    if Merger.isRef key jsonPath then do
      let (ret', st') ← Merger.handleRef u cfg fuel st ret key val file jsonPath
      Merger.mergeRefsLoop u cfg fuel st' ret' rest file jsonPath
    else if Merger.isInclude key then do
      let (r, _, st') ← Merger.handleInclude u cfg fuel st ret key val file jsonPath
      Merger.mergeRefsLoop u cfg fuel st' r rest file jsonPath
    else do
      let (merged, st') ← Merger.mergeRefs u cfg fuel st val file (jsonPath ++ "." ++ key)
      let ret' :=
        if merged.isIncludedArray && ret.isArrayLike then mowDoc fuel ret merged
        else ret.setKey key (mergeOrOverwrite fuel (ret.getKey key) merged)
      Merger.mergeRefsLoop u cfg fuel st' ret' rest file jsonPath

/-- `Merger.handleRef` (lines 93-141): convert a remote/URL reference
into a local one.  The returned document is the caller object after the
in-place mutations the engine performs on it. -/
def Merger.handleRef (u : Univ) (cfg : Config) :
    Nat → MState → Doc → String → Doc → String → String →
    Res (Doc × MState)
  | 0, _, _, _, _, _, _ => .fuelOut
  | fuel + 1, st, obj, key, val, file, jsonPath =>
    let obj1 := obj.setKey key (mergeOrOverwrite fuel (obj.getKey key) val)
    let v := val.asString
    let pRef := parseUrl v
    let pFile := parseUrl file
    let refType := getRefType jsonPath
    if shouldInclude refType then do
      let (_, objVis, st') ← Merger.handleInclude u cfg fuel st obj1 key val file jsonPath
      .ok (objVis, st')
    else if pRef.isHttp then
      let cmpExists := st.manager.existsKey pRef.href
      match ComponentManager.getOrCreate u st.manager st.cache refType pRef.href with
      | .error e => .fatal e
      | .ok (cmp, mgr, cache') =>
        Merger.refFinish u cfg fuel ⟨mgr, cache'⟩ obj1 key cmpExists cmp
          pRef.hrefWoHash jsonPath
    else if pRef.isLocal then
      if st.manager.existsKey v then .ok (obj1, st)
      else
        let href := pFile.hrefWoHash ++ (if pRef.hash = "#/" then "" else pRef.hash)
        let cmpExists := st.manager.existsKey href
        match ComponentManager.getOrCreate u st.manager st.cache refType href with
        | .error e => .fatal e
        | .ok (cmp, mgr, cache') =>
          Merger.refFinish u cfg fuel ⟨mgr, cache'⟩ obj1 key cmpExists cmp
            pFile.hrefWoHash jsonPath
    else
      let target :=
        if pFile.isHttp then urlResolve (posixDirname pFile.hrefWoHash ++ "/") v
        else posixJoin (posixDirname pFile.hrefWoHash) v
      let parsedTarget := parseUrl target
      let cmpExists := st.manager.existsKey target
      match ComponentManager.getOrCreate u st.manager st.cache refType target with
      | .error e => .fatal e
      | .ok (cmp, mgr, cache') =>
        Merger.refFinish u cfg fuel ⟨mgr, cache'⟩ obj1 key cmpExists cmp
          parsedTarget.hrefWoHash jsonPath

/-- Lines 136-140 of `Merger.handleRef`: rewrite the directive value to
the canonical local pointer of the component, and - only when the
component did not exist before this call - recursively resolve its
content and store it (the cycle guard). -/
def Merger.refFinish (u : Univ) (cfg : Config) :
    Nat → MState → Doc → String → Bool → Component → String → String →
    Res (Doc × MState)
  | 0, _, _, _, _, _, _, _ => .fuelOut
  | fuel + 1, st, obj1, key, cmpExists, cmp, nextFile, jsonPath =>
    let obj2 := obj1.setKey key (Doc.str (st.manager.getLocalRef cmp))
    if cmpExists then .ok (obj2, st)
    else do
      let (resolved, st') ← Merger.mergeRefs u cfg fuel st cmp.content nextFile
        (jsonPath ++ "." ++ key)
      .ok (obj2, ⟨st'.manager.setContent cmp.clazz cmp.key resolved, st'.cache⟩)

/-- `Merger.handleInclude` (lines 156-226): convert an inclusion into
its contents.  Returns the value the JavaScript function returns,
together with the state of the passed-in object as its caller observes
it (they differ when the function rebinds its local `obj` to a fresh
array), and the threaded state. -/
def Merger.handleInclude (u : Univ) (cfg : Config) :
    Nat → MState → Doc → String → Doc → String → String →
    Res (Doc × Doc × MState)
  | 0, _, _, _, _, _, _ => .fuelOut
  | fuel + 1, st, obj, key, val, file, jsonPath =>
    let obj2 := obj.setKey key (mergeOrOverwrite fuel (obj.getKey key) val)
    let v := val.asString
    let pRef := parseUrl v
    let pFile := parseUrl file
    if pRef.isHttp then
      let (content, cache') := download u st.cache pRef.hrefWoHash
      Merger.finishInclude u cfg fuel ⟨st.manager, cache'⟩ obj2 key v content
        pRef.hrefWoHash jsonPath
    else if pRef.isLocal then
      match st.manager.get v with
      | some _ => .ok (obj2, obj2, st)
      | none =>
        match readYAML u file with
        | .error e => .fatal e
        | .ok content =>
          Merger.finishInclude u cfg fuel st obj2 key v content
            pFile.hrefWoHash jsonPath
    else
      let target :=
        if pFile.isHttp then urlResolve (posixDirname pFile.hrefWoHash ++ "/") v
        else posixJoin (posixDirname pFile.hrefWoHash) v
      let parsedTarget := parseUrl target
      if parsedTarget.isHttp then
        let (content, cache') := download u st.cache parsedTarget.hrefWoHash
        Merger.finishInclude u cfg fuel ⟨st.manager, cache'⟩ obj2 key v content
          parsedTarget.hrefWoHash jsonPath
      else if strHasChar parsedTarget.hrefWoHash '*' then do
        let matched := ((u.glob.lookup parsedTarget.hrefWoHash).getD []).map
          (pathRelative (posixDirname pFile.hrefWoHash))
        let (content, st') ← Merger.globFold u cfg fuel st key file jsonPath
          matched (Doc.map [])
        Merger.finishInclude u cfg fuel st' obj2 key v content
          parsedTarget.hrefWoHash jsonPath
      else
        match readYAML u parsedTarget.hrefWoHash with
        | .error e => .fatal e
        | .ok content =>
          Merger.finishInclude u cfg fuel st obj2 key v content
            parsedTarget.hrefWoHash jsonPath

/-- The glob loop of `Merger.handleInclude` (lines 195-199): include
each matched file individually, keyed by its base name with the
extension stripped. -/
def Merger.globFold (u : Univ) (cfg : Config) :
    Nat → MState → String → String → String → List String → Doc →
    Res (Doc × MState)
  | 0, _, _, _, _, _, _ => .fuelOut
  | _ + 1, st, _, _, _, [], content => .ok (content, st)
  | fuel + 1, st, key, file, jsonPath, mf :: rest, content => do
    let bn := basenameNoExt mf
    let (r, _, st') ← Merger.handleInclude u cfg fuel st
      (Doc.map [(key, Doc.str mf)]) key (Doc.str mf) file (jsonPath ++ "." ++ bn)
    Merger.globFold u cfg fuel st' key file jsonPath rest (content.setKey bn r)

/-- Lines 207-225 of `Merger.handleInclude`: slice the obtained content
by the target fragment, recursively resolve it in the context of the
file it came from, and combine it with the destination object. -/
def Merger.finishInclude (u : Univ) (cfg : Config) :
    Nat → MState → Doc → String → String → Doc → String → String →
    Res (Doc × Doc × MState)
  | 0, _, _, _, _, _, _, _ => .fuelOut
  | fuel + 1, st, obj2, key, v, content, nextFile, jsonPath => do
    let sliced := sliceObject content (parseUrl v).hash
    let (merged, st') ← Merger.mergeRefs u cfg fuel st sliced nextFile jsonPath
    match includeMergeStep cfg fuel obj2 key v jsonPath merged with
    | .error e => .fatal e
    | .ok (result, inPlace) =>
      .ok (result, if inPlace then result else obj2, st')

end

/-- `Merger.merge` (lines 28-48): the two-pass driver.  The first pass
discovers and registers every reachable component; the resolver then
computes final names from the full registry; the second pass substitutes
resolved local references, and the assembled components section is
merged into the output document.  The download cache is threaded in and
out because it is module-scoped, not pass-scoped. -/
def Merger.merge (u : Univ) (cfg : Config) (fuel : Nat) (cache : Cache)
    (doc : Doc) (docPath : String) : Res (Doc × Cache) :=
  let path := (parseUrl docPath).path
  do
    let (_, st1) ← Merger.mergeRefs u cfg fuel ⟨{}, cache⟩ doc path "$"
    let names := resolveNames st1.manager.components
    let (doc2, st2) ← Merger.mergeRefs u cfg fuel
      ⟨{ resolver := some names }, st1.cache⟩ doc path "$"
    let sect := st2.manager.getComponentsSection
    let existing := (doc2.getKey "components").getD (Doc.map [])
    pure (doc2.setKey "components" (lodashMerge fuel existing sect), st2.cache)

/-!
## Relations for cache-insensitivity (determinism across runs)

Two runs of the walker that start from equal registries and from
download caches that are both consistent with the world produce equal
documents and equal registries; only the caches may differ (and stay
consistent).  The relations below state this for walker states and for
fueled results.
-/

/-- Two walker states agree on everything but the download cache, and
both caches are consistent with the world. -/
def StRel (u : Univ) (s1 s2 : MState) : Prop :=
  s1.manager = s2.manager ∧ Consistent u s1.cache ∧ Consistent u s2.cache

/-- Results of `mergeRefs`-shaped calls: equal documents, related
states. -/
def PairRel (u : Univ) (p1 p2 : Doc × MState) : Prop :=
  p1.1 = p2.1 ∧ StRel u p1.2 p2.2

/-- Results of `handleInclude`-shaped calls: equal returned documents,
equal caller-visible objects, related states. -/
def TripRel (u : Univ) (p1 p2 : Doc × Doc × MState) : Prop :=
  p1.1 = p2.1 ∧ p1.2.1 = p2.2.1 ∧ StRel u p1.2.2 p2.2.2

/-- Lift a relation on values to fueled results: fuel exhaustion pairs
with fuel exhaustion, fatal errors pair with the same message, values
pair when related. -/
def ResRelWith {α β : Type} (R : α → β → Prop) :
    Res α → Res β → Prop
  | .fuelOut, .fuelOut => True
  | .fatal e1, .fatal e2 => e1 = e2
  | .ok a, .ok b => R a b
  | _, _ => False

/-- Results of `getOrCreate` from equal registries and consistent
caches: equal errors, or an equal component and registry with both
output caches consistent. -/
def GocRel (u : Univ) :
    Except String (Component × ComponentManager × Cache) →
    Except String (Component × ComponentManager × Cache) → Prop
  | .error e1, .error e2 => e1 = e2
  | .ok (c1, m1, k1), .ok (c2, m2, k2) =>
      c1 = c2 ∧ m1 = m2 ∧ Consistent u k1 ∧ Consistent u k2
  | _, _ => False

/-!
## Heap model for the clone semantics of `download` (http.js)

The value-level `download` above abstracts lodash `cloneDeep` away: a
document is its value, so nothing can be said about aliasing.  The
claim that `download` hands out a fresh deep copy - so mutating the
returned object cannot change what a later call observes - is about
object identity.  Here documents become graphs of addressed nodes in a
store, the cache maps each URL to the address of the canonically
stored document (http.js line 79: `cache[url] = doc`), and `cloneDeep`
becomes a fresh allocation of the whole tree (lines 51 and 80:
`return cloneDeep(...)`).  Allocation and reading are fueled like the
walker; the fuel is an embedding artifact and is always ample.
-/

/-- One node of the store: a scalar value, an object with addressed
fields, or an array (`true` marks an `IncludedArray`) with addressed
elements. -/
inductive SNode where
  | sval : Doc → SNode
  | sobj : List (String × Nat) → SNode
  | sarr : Bool → List Nat → SNode

/-- The store: allocated nodes and the next fresh address. -/
structure Store where
  mem : List (Nat × SNode) := []
  next : Nat := 0

/-- The addresses a node points at. -/
def nodeAddrs : SNode → List Nat
  | .sval _ => []
  | .sobj ks => ks.map Prod.snd
  | .sarr _ as => as

/-- A well-formed store: every allocated address and every address a
node points at lies below the allocation frontier. -/
def Wf (st : Store) : Prop :=
  ∀ p ∈ st.mem, p.1 < st.next ∧ ∀ c ∈ nodeAddrs p.2, c < st.next

/-- Addresses below `N` form a closed region: nodes stored there only
point below `N`. -/
def ClosedBelow (st : Store) (N : Nat) : Prop :=
  ∀ a nd, List.lookup a st.mem = some nd → a < N →
    ∀ c ∈ nodeAddrs nd, c < N

/-- Mutate the node stored at address `b` (the model of assigning into
an object obtained from `download`). -/
def writeStore (st : Store) (b : Nat) (nd : SNode) : Store :=
  ⟨st.mem.map fun p => if p.1 = b then (b, nd) else p, st.next⟩

mutual

/-- Allocate a document as a fresh tree of nodes, returning the root
address (the model of building a brand-new object, as `cloneDeep` and
the YAML parser do). -/
def allocDoc : Nat → Store → Doc → Option (Nat × Store)
  | 0, _, _ => none
  | fuel + 1, st, Doc.map kvs =>
    match allocKVs fuel st kvs with
    | none => none
    | some (ks, st1) =>
      some (st1.next, ⟨st1.mem ++ [(st1.next, SNode.sobj ks)], st1.next + 1⟩)
  | fuel + 1, st, Doc.arr xs =>
    match allocArr fuel st xs with
    | none => none
    | some (as, st1) =>
      some (st1.next,
        ⟨st1.mem ++ [(st1.next, SNode.sarr false as)], st1.next + 1⟩)
  | fuel + 1, st, Doc.iarr xs =>
    match allocArr fuel st xs with
    | none => none
    | some (as, st1) =>
      some (st1.next,
        ⟨st1.mem ++ [(st1.next, SNode.sarr true as)], st1.next + 1⟩)
  | _ + 1, st, Doc.null =>
    some (st.next, ⟨st.mem ++ [(st.next, SNode.sval Doc.null)], st.next + 1⟩)
  | _ + 1, st, Doc.bool b =>
    some (st.next,
      ⟨st.mem ++ [(st.next, SNode.sval (Doc.bool b))], st.next + 1⟩)
  | _ + 1, st, Doc.num n =>
    some (st.next,
      ⟨st.mem ++ [(st.next, SNode.sval (Doc.num n))], st.next + 1⟩)
  | _ + 1, st, Doc.str s =>
    some (st.next,
      ⟨st.mem ++ [(st.next, SNode.sval (Doc.str s))], st.next + 1⟩)

/-- Allocate the fields of an object in stored order. -/
def allocKVs : Nat → Store → List (String × Doc) →
    Option (List (String × Nat) × Store)
  | 0, _, _ => none
  | _ + 1, st, [] => some ([], st)
  | fuel + 1, st, (k, v) :: rest =>
    match allocDoc fuel st v with
    | none => none
    | some (a, st1) =>
      match allocKVs fuel st1 rest with
      | none => none
      | some (ks, st2) => some ((k, a) :: ks, st2)

/-- Allocate the elements of an array in order. -/
def allocArr : Nat → Store → List Doc → Option (List Nat × Store)
  | 0, _, _ => none
  | _ + 1, st, [] => some ([], st)
  | fuel + 1, st, v :: rest =>
    match allocDoc fuel st v with
    | none => none
    | some (a, st1) =>
      match allocArr fuel st1 rest with
      | none => none
      | some (as, st2) => some (a :: as, st2)

end

mutual

/-- Read the document value rooted at an address. -/
def readDoc : Nat → Store → Nat → Option Doc
  | 0, _, _ => none
  | fuel + 1, st, a =>
    match List.lookup a st.mem with
    | none => none
    | some (SNode.sval s) => some s
    | some (SNode.sobj ks) =>
      match readKVs fuel st ks with
      | none => none
      | some kvs => some (Doc.map kvs)
    | some (SNode.sarr false as) =>
      match readArr fuel st as with
      | none => none
      | some xs => some (Doc.arr xs)
    | some (SNode.sarr true as) =>
      match readArr fuel st as with
      | none => none
      | some xs => some (Doc.iarr xs)

/-- Read the fields of a stored object. -/
def readKVs : Nat → Store → List (String × Nat) →
    Option (List (String × Doc))
  | 0, _, _ => none
  | _ + 1, _, [] => some []
  | fuel + 1, st, (k, a) :: rest =>
    match readDoc fuel st a with
    | none => none
    | some d =>
      match readKVs fuel st rest with
      | none => none
      | some kvs => some ((k, d) :: kvs)

/-- Read the elements of a stored array. -/
def readArr : Nat → Store → List Nat → Option (List Doc)
  | 0, _, _ => none
  | _ + 1, _, [] => some []
  | fuel + 1, st, a :: rest =>
    match readDoc fuel st a with
    | none => none
    | some d =>
      match readArr fuel st rest with
      | none => none
      | some xs => some (d :: xs)

end

/-- `download` of http.js over the store (lines 49-82): a cache hit
reads the canonically stored document and returns a freshly allocated
deep copy of it; a successful fetch allocates the parsed document,
caches its address, and returns a second, independent allocation of
it; a failed fetch returns a fresh empty object and caches nothing. -/
def downloadS (u : Univ) (fuel : Nat) (st : Store)
    (cache : List (String × Nat)) (url : String) :
    Option (Nat × Store × List (String × Nat)) :=
  match List.lookup url cache with
  | some a0 =>
    match readDoc fuel st a0 with
    | none => none
    | some d =>
      match allocDoc fuel st d with
      | none => none
      | some (a1, st1) => some (a1, st1, cache)
  | none =>
    match fetchDoc u url with
    | some d =>
      match allocDoc fuel st d with
      | none => none
      | some (a0, st1) =>
        match allocDoc fuel st1 d with
        | none => none
        | some (a1, st2) => some (a1, st2, (url, a0) :: cache)
    | none =>
      match allocDoc fuel st (Doc.map []) with
      | none => none
      | some (a1, st1) => some (a1, st1, cache)

/-!
# Verified claims
-/

/-- **C6**: for every URL that is not already cached, a transport error
or a non-success status makes `download` return an empty mapping with
the cache unaltered - the failure is logged, never raised (`download`
is a total function of this model by construction), so the rest of the
document walk continues.  The second conjunct exhibits a whole merge
completing normally although its only include points at a URL whose
fetch fails. -/
theorem download_failure_nonfatal (u : Univ) (cache : Cache) (url : String)
    (hmiss : List.lookup url cache = none)
    (hfail : u.net.lookup url = some FetchOutcome.transportError ∨
      ∃ code, u.net.lookup url = some (FetchOutcome.badStatus code)) :
    download u cache url = (Doc.map [], cache) ∧
    Merger.merge
      { net := [("http://h/a.yaml", FetchOutcome.transportError)] } {} 20
      Cache.empty
      (Doc.map [("x", Doc.map [("$include", Doc.str "http://h/a.yaml")])])
      "/d/r.yaml" =
      .ok (Doc.map [("x", Doc.map []), ("components", Doc.map [])], []) := by
  refine ⟨?_, rfl⟩
  unfold download
  rw [hmiss]
  rcases hfail with h | ⟨code, h⟩ <;> rw [h]

/-- Witness for C6 at a concrete failing URL. -/
theorem download_failure_nonfatal_witness :
    List.lookup "http://h/a.yaml" Cache.empty = none ∧
    download { net := [("http://h/a.yaml", FetchOutcome.transportError)] }
      Cache.empty "http://h/a.yaml" = (Doc.map [], Cache.empty) :=
  ⟨rfl,
    (download_failure_nonfatal
      { net := [("http://h/a.yaml", FetchOutcome.transportError)] }
      Cache.empty "http://h/a.yaml" rfl (Or.inl rfl)).1⟩

/-- **C2**: when the resolved content of an include directive is a
sequence, the combination step of `handleInclude` appends it to a
sequence destination (of either species), replaces a destination
mapping whose one and only key is the directive itself by the sequence
(as an `IncludedArray`), and raises the fatal structural error for
every other destination shape; the last two conjuncts show that a
fatal result of `handleInclude` aborts the surrounding entry loop and
that a fatal first pass aborts the whole `merge` invocation. -/
theorem includeSequenceRule (cfg : Config) (fuel : Nat) (merged : Doc)
    (key v jsonPath : String) (harr : merged.isArrayLike = true) :
    (∀ xs, includeMergeStep cfg fuel (Doc.arr xs) key v jsonPath merged =
      .ok (Doc.arr (xs ++ merged.elems), false)) ∧
    (∀ xs, includeMergeStep cfg fuel (Doc.iarr xs) key v jsonPath merged =
      .ok (Doc.iarr (xs ++ merged.elems), false)) ∧
    (∀ dv, includeMergeStep cfg fuel (Doc.map [(key, dv)]) key v jsonPath merged =
      .ok (Doc.iarr merged.elems, false)) ∧
    (∀ kvs, kvs.length ≠ 1 →
      includeMergeStep cfg fuel (Doc.map kvs) key v jsonPath merged =
      .error ("cannot merge array content object. $include: " ++ v ++
        " at jsonPath=" ++ jsonPath)) ∧
    (∀ u st ret rest file jp fuel' e val,
      Merger.isRef key jp = false → Merger.isInclude key = true →
      Merger.handleInclude u cfg fuel' st ret key val file jp = .fatal e →
      Merger.mergeRefsLoop u cfg (fuel' + 1) st ret ((key, val) :: rest) file jp =
        .fatal e) ∧
    (∀ u fuel' cache doc docPath e,
      Merger.mergeRefs u cfg fuel' ⟨{}, cache⟩ doc (parseUrl docPath).path "$" =
        .fatal e →
      Merger.merge u cfg fuel' cache doc docPath = .fatal e) := by
  refine ⟨?_, ?_, ?_, ?_, ?_, ?_⟩
  · intro xs
    simp [includeMergeStep, harr]
  · intro xs
    simp [includeMergeStep, harr]
  · intro dv
    simp [includeMergeStep, harr, Doc.keys]
  · intro kvs h
    simp [includeMergeStep, harr, Doc.keys, h]
  · intro u st ret rest file jp fuel' e val href hinc hfatal
    simp [Merger.mergeRefsLoop, href, hinc, hfatal, Bind.bind]
  · intro u fuel' cache doc docPath e h
    simp [Merger.merge, h, Bind.bind]

/-- Witness for C2 at concrete inputs: appending to a sequence
destination. -/
theorem includeSequenceRule_witness :
    (Doc.arr [Doc.num 1]).isArrayLike = true ∧
    includeMergeStep {} 5 (Doc.arr [Doc.num 0]) "$include" "./i.yaml" "$.x"
      (Doc.arr [Doc.num 1]) = .ok (Doc.arr [Doc.num 0, Doc.num 1], false) :=
  ⟨rfl,
    (includeSequenceRule {} 5 (Doc.arr [Doc.num 1]) "$include" "./i.yaml" "$.x"
      rfl).1 [Doc.num 0]⟩

/-- **C4, counterexample**: at the concrete destination holding the
sibling key `x = 1` and an include whose resolved mapping carries
`x = 2`, the deep-merge step resolves the conflict to `2` - the key
introduced by the include wins over the existing sibling key, not the
other way round as the claim states. -/
theorem includeObjectMerge_counterexample :
    includeMergeStep {} 5
      (Doc.map [("x", Doc.num 1), ("$include", Doc.str "./f.yaml")])
      "$include" "./f.yaml" "$.p" (Doc.map [("x", Doc.num 2)]) =
      .ok (Doc.map [("x", Doc.num 2)], true) ∧
    (Doc.map [("x", Doc.num 2)]).getKey "x" ≠ some (Doc.num 1) := by
  refine ⟨rfl, ?_⟩
  simp [Doc.getKey, List.lookup]

/-- **C4, amended**: when the resolved content of an include directive
is a mapping, `handleInclude` post-processes it and deep-merges it into
the destination with lodash `merge` semantics - on a key conflict the
key introduced by the include wins over the existing sibling key
(objects merge recursively key by key, non-object values are
overwritten by the incoming value), and the directive key itself is
removed afterwards.  The second conjunct is the overwrite direction of
the merge at non-object leaves, the third the key-conflict mechanics of
the underlying association-list fold. -/
theorem includeObjectMerge_amended (cfg : Config) (fuel : Nat)
    (obj merged : Doc) (key v jsonPath : String)
    (hmap : merged.isArrayLike = false) :
    includeMergeStep cfg fuel obj key v jsonPath merged =
      .ok ((lodashMerge fuel obj ((processInclude key merged cfg).1)).deleteKey key,
        true) ∧
    (∀ n a b, b.isObject = false → lodashMerge n a b = b) ∧
    (∀ mrg as k xv yv, List.lookup k as = some xv →
      List.lookup k (insertWith mrg as k yv) = some (mrg xv yv)) := by
  refine ⟨?_, ?_, ?_⟩
  · simp [includeMergeStep, hmap]
  · intro n a b hb
    match n with
    | 0 => rfl
    | n + 1 => cases a <;> cases b <;> simp_all [Doc.isObject, lodashMerge]
  · intro mrg as k xv yv h
    induction as with
    | nil => simp [List.lookup] at h
    | cons hd tl ih =>
      obtain ⟨k0, v0⟩ := hd
      by_cases hk : k0 = k
      · subst hk
        simp [List.lookup] at h
        subst h
        simp [insertWith, List.lookup]
      · have hbe : (k == k0) = false := by
          simp [beq_iff_eq]
          exact fun hkk => hk hkk.symm
        simp [List.lookup, hbe] at h
        simp [insertWith, hk, List.lookup, hbe, ih h]

/-- Witness for the amended C4 at a concrete conflict. -/
theorem includeObjectMerge_amended_witness :
    (Doc.map [("x", Doc.num 2)]).isArrayLike = false ∧
    includeMergeStep {} 5
      (Doc.map [("x", Doc.num 1), ("$include", Doc.str "./f.yaml")])
      "$include" "./f.yaml" "$.p" (Doc.map [("x", Doc.num 2)]) =
      .ok ((lodashMerge 5
          (Doc.map [("x", Doc.num 1), ("$include", Doc.str "./f.yaml")])
          ((processInclude "$include" (Doc.map [("x", Doc.num 2)]) {}).1)).deleteKey
        "$include", true) :=
  ⟨rfl,
    (includeObjectMerge_amended {} 5
      (Doc.map [("x", Doc.num 1), ("$include", Doc.str "./f.yaml")])
      (Doc.map [("x", Doc.num 2)]) "$include" "./f.yaml" "$.p" rfl).1⟩

/-- **C9**: for an include directive carrying a class suffix, the
post-processor applies the per-class transformations in the order
filter first, then the key prefix, then the key suffix (third conjunct:
with all three configured, the result keys are exactly the filtered
keys wrapped as `prefix ++ key ++ suffix`, in stored order); when no
configuration exists for the named class the content passes through
unchanged and a warning is surfaced. -/
theorem processIncludeOrder (key clazz : String) (kvs : List (String × Doc))
    (cfg : Config) (hcls : getIncludeClass key = some clazz) :
    (cfg.includeCfg.lookup clazz = none →
      processInclude key (Doc.map kvs) cfg =
        (Doc.map kvs,
          ["$include classname " ++ clazz ++
            " specified, but no configuration found."])) ∧
    (∀ cc, cfg.includeCfg.lookup clazz = some cc →
      processInclude key (Doc.map kvs) cfg =
        (prependObjectKeys
          (appendObjectKeys (filterObject (Doc.map kvs) cc.filter) cc.prefixVal)
          cc.suffix, []) ∧
      (∀ f p s, cc = ⟨some f, some p, some s⟩ →
        (processInclude key (Doc.map kvs) cfg).1 =
          Doc.map ((kvs.filter fun kv => f kv.1).map
            fun kv => (p ++ kv.1 ++ s, kv.2)))) := by
  constructor
  · intro h
    simp [processInclude, hcls, h]
  · intro cc hcc
    constructor
    · simp [processInclude, hcls, hcc]
    · intro f p s hcceq
      subst hcceq
      simp [processInclude, hcls, hcc, filterObject, appendObjectKeys,
        prependObjectKeys, List.map_map, Function.comp]

/-- Witness for C9 with a concretely configured class. -/
theorem processIncludeOrder_witness :
    getIncludeClass "$include.pets" = some "pets" ∧
    (processInclude "$include.pets"
        (Doc.map [("cat", Doc.num 1), ("dog", Doc.num 2)])
        { includeCfg := [("pets",
          { filter := some fun k => k == "cat", prefixVal := some "p_",
            suffix := some "_s" })] }).1 =
      Doc.map [("p_cat_s", Doc.num 1)] := by
  refine ⟨rfl, ?_⟩
  have h := ((processIncludeOrder "$include.pets" "pets"
    [("cat", Doc.num 1), ("dog", Doc.num 2)]
    { includeCfg := [("pets",
      { filter := some fun k => k == "cat", prefixVal := some "p_",
        suffix := some "_s" })] } rfl).2
    { filter := some fun k => k == "cat", prefixVal := some "p_",
      suffix := some "_s" } rfl).2 (fun k => k == "cat") "p_" "_s" rfl
  rw [h]
  rfl

/-!
## Registry and name-resolver lemmas (towards the dedup claim)
-/

/-- Generic association-list fact: a lookup that succeeds on the left
part of an append is unchanged by the appended part. -/
theorem lookup_append_left {α β : Type} [BEq α] (l₁ l₂ : List (α × β)) (a : α)
    (h : (List.lookup a l₁).isSome) :
    List.lookup a (l₁ ++ l₂) = List.lookup a l₁ := by
  induction l₁ with
  | nil => simp [List.lookup] at h
  | cons hd tl ih =>
    obtain ⟨k, b⟩ := hd
    cases hbe : a == k with
    | true => simp [List.lookup, hbe]
    | false =>
      simp [List.lookup, hbe] at h ⊢
      exact ih h

/-- A key occurring among the first components of an association list
has a successful lookup. -/
theorem lookup_isSome_of_mem_fst {α β : Type} [BEq α] [LawfulBEq α]
    (l : List (α × β)) (a : α) (h : a ∈ l.map Prod.fst) :
    (List.lookup a l).isSome := by
  induction l with
  | nil => simp at h
  | cons hd tl ih =>
    obtain ⟨k, b⟩ := hd
    cases hbe : a == k with
    | true => simp [List.lookup, hbe]
    | false =>
      have hne : a ≠ k := by simpa using hbe
      have h' : a ∈ tl.map Prod.fst := by
        simp only [List.map_cons] at h
        rcases List.mem_cons.mp h with h0 | h0
        · exact absurd h0 hne
        · exact h0
      simp only [List.lookup, hbe]
      exact ih h'

/-- A successful lookup exhibits a member of the association list. -/
theorem lookup_mem {α β : Type} [BEq α] [LawfulBEq α]
    {l : List (α × β)} {a : α} {b : β}
    (h : List.lookup a l = some b) : (a, b) ∈ l := by
  induction l with
  | nil => simp [List.lookup] at h
  | cons hd tl ih =>
    obtain ⟨k, c⟩ := hd
    cases hbe : a == k with
    | true =>
      simp only [List.lookup, hbe] at h
      have hk : a = k := by simpa using hbe
      cases h
      subst hk
      exact List.mem_cons_self _ _
    | false =>
      simp only [List.lookup, hbe] at h
      exact List.mem_cons_of_mem _ (ih h)

/-- `find?` skips over a part of the list on which it fails. -/
theorem find?_append_none {α : Type} (p : α → Bool) (l₁ l₂ : List α)
    (h : l₁.find? p = none) :
    (l₁ ++ l₂).find? p = l₂.find? p := by
  induction l₁ with
  | nil => simp
  | cons hd tl ih =>
    cases hp : p hd with
    | true =>
      rw [List.find?_cons_of_pos _ hp] at h
      exact absurd h (by simp)
    | false =>
      rw [List.find?_cons_of_neg _ (by simp [hp])] at h
      rw [List.cons_append, List.find?_cons_of_neg _ (by simp [hp])]
      exact ih h

/-- Every member is at most as long as the longest member. -/
theorem length_le_maxStrLen {l : List String} {s : String} (h : s ∈ l) :
    s.length ≤ maxStrLen l := by
  induction l with
  | nil => simp at h
  | cons hd tl ih =>
    rcases List.mem_cons.mp h with rfl | hmem
    · simp [maxStrLen]
    · calc s.length ≤ maxStrLen tl := ih hmem
        _ ≤ maxStrLen (hd :: tl) := by simp [maxStrLen]

/-- The disambiguation loop yields a name that is not yet used, as long
as the fuel covers the length gap to the longest used name. -/
theorem freshNameFrom_not_mem (fuel : Nat) :
    ∀ used cand, maxStrLen used < cand.length + fuel →
      freshNameFrom fuel used cand ∉ used := by
  induction fuel with
  | zero =>
    intro used cand h hmem
    simp [freshNameFrom] at hmem
    exact absurd (length_le_maxStrLen hmem) (by omega)
  | succ n ih =>
    intro used cand h
    cases hc : used.contains cand with
    | true =>
      simp only [freshNameFrom, hc, if_true]
      refine ih used (cand ++ "1") ?_
      have h1 : ("1" : String).length = 1 := rfl
      have hlen : (cand ++ "1").length = cand.length + 1 := by
        rw [String.length_append, h1]
      omega
    | false =>
      simp only [freshNameFrom, hc, Bool.false_eq_true, if_false]
      intro hmem
      have hcc : used.contains cand = true := List.elem_eq_true_of_mem hmem
      rw [hcc] at hc
      simp at hc

/-- The assigned name never collides with an already-used name. -/
theorem freshName_not_mem (used : List String) (cand : String) :
    freshName used cand ∉ used := by
  unfold freshName
  exact freshNameFrom_not_mem _ used cand (by omega)

/-- The keys of the resolver output are exactly the (class, target)
pairs of the components, in registration order. -/
theorem resolveFold_fst (comps : List Component) :
    ∀ acc, (comps.foldl resolveStep acc).map Prod.fst =
      acc.map Prod.fst ++ comps.map fun c => (c.clazz, c.key) := by
  induction comps with
  | nil => intro acc; simp
  | cons c rest ih =>
    intro acc
    simp only [List.foldl_cons, ih, resolveStep]
    simp

/-- Within any class, the names assigned by the resolver are pairwise
distinct. -/
theorem resolveFold_names_nodup (comps : List Component) :
    ∀ acc cl, (((acc.filter fun e => e.1.1 = cl).map fun e => e.2).Nodup) →
      ((((comps.foldl resolveStep acc).filter fun e => e.1.1 = cl).map
        fun e => e.2).Nodup) := by
  induction comps with
  | nil => intro acc cl h; simpa using h
  | cons c rest ih =>
    intro acc cl h
    simp only [List.foldl_cons]
    refine ih _ cl ?_
    by_cases hcl : c.clazz = cl
    · subst hcl
      have hfresh := freshName_not_mem
        ((acc.filter fun e => e.1.1 = c.clazz).map fun e => e.2)
        (candidateName c.key)
      have hfil : (resolveStep acc c).filter (fun e => e.1.1 = c.clazz) =
          acc.filter (fun e => e.1.1 = c.clazz) ++
            [((c.clazz, c.key),
              freshName ((acc.filter fun e => e.1.1 = c.clazz).map fun e => e.2)
                (candidateName c.key))] := by
        simp [resolveStep]
      rw [hfil, List.map_append, List.nodup_append]
      refine ⟨h, by simp, ?_⟩
      intro a ha hb
      simp only [List.map_cons, List.map_nil, List.mem_singleton] at hb
      subst hb
      exact hfresh ha
    · have hfil : (resolveStep acc c).filter (fun e => e.1.1 = cl) =
          acc.filter (fun e => e.1.1 = cl) := by
        simp [resolveStep, hcl]
      rw [hfil]
      exact h

/-- Updating one key of an association list makes it hold that value. -/
theorem lookup_setAssoc_self (A : List (String × Doc)) (k : String) (v : Doc) :
    List.lookup k (Doc.setAssoc A k v) = some v := by
  induction A with
  | nil => simp [Doc.setAssoc, List.lookup]
  | cons hd tl ih =>
    obtain ⟨k0, v0⟩ := hd
    by_cases hk : k0 = k
    · subst hk
      simp [Doc.setAssoc, List.lookup]
    · have hbe : (k == k0) = false := by
        simp only [beq_eq_false_iff_ne]
        exact fun hkk => hk hkk.symm
      simp [Doc.setAssoc, hk, List.lookup, hbe, ih]

/-- Updating one key of an association list leaves the others alone. -/
theorem lookup_setAssoc_ne (A : List (String × Doc)) (k k' : String) (v : Doc)
    (h : k' ≠ k) :
    List.lookup k' (Doc.setAssoc A k v) = List.lookup k' A := by
  induction A with
  | nil =>
    have hbe : (k' == k) = false := by simpa using h
    simp [Doc.setAssoc, List.lookup, hbe]
  | cons hd tl ih =>
    obtain ⟨k0, v0⟩ := hd
    by_cases hk : k0 = k
    · subst hk
      have hbe : (k' == k0) = false := by simpa using h
      simp [Doc.setAssoc, List.lookup, hbe]
    · cases hbe : k' == k0 with
      | true => simp [Doc.setAssoc, hk, List.lookup, hbe]
      | false => simp [Doc.setAssoc, hk, List.lookup, hbe, ih]

/-- Updating an absent key appends it. -/
theorem setAssoc_of_not_mem (A : List (String × Doc)) (k : String) (v : Doc)
    (h : k ∉ A.map Prod.fst) :
    Doc.setAssoc A k v = A ++ [(k, v)] := by
  induction A with
  | nil => simp [Doc.setAssoc]
  | cons hd tl ih =>
    obtain ⟨k0, v0⟩ := hd
    simp only [List.map_cons, List.mem_cons] at h
    push_neg at h
    have hk : k0 ≠ k := fun he => h.1 he.symm
    simp [Doc.setAssoc, hk, ih h.2]

/-- Folding components into the section, when the class bucket already
holds a mapping whose keys avoid the incoming names: the bucket ends up
extended by one entry per component of the class, in order. -/
theorem sectionFold_some (m : ComponentManager) (cl : String) :
    ∀ (comps : List Component) (A kvs0 : List (String × Doc)),
      List.lookup cl A = some (Doc.map kvs0) →
      (((comps.filter fun c => c.clazz = cl).map m.nameOf).Nodup) →
      (∀ c ∈ comps, c.clazz = cl → m.nameOf c ∉ kvs0.map Prod.fst) →
      (List.foldl (sectionInsert m) (Doc.map A) comps).getKey cl =
        some (Doc.map (kvs0 ++ (comps.filter fun c => c.clazz = cl).map
          fun c => (m.nameOf c, c.content))) := by
  intro comps
  induction comps with
  | nil =>
    intro A kvs0 hA _ _
    simpa [Doc.getKey] using hA
  | cons c rest ih =>
    intro A kvs0 hA hnodup hfresh
    by_cases hc : c.clazz = cl
    · have hn : m.nameOf c ∉ kvs0.map Prod.fst :=
        hfresh c (List.mem_cons_self _ _) hc
      have hfil : (c :: rest).filter (fun c => c.clazz = cl) =
          c :: rest.filter (fun c => c.clazz = cl) := by
        simp [List.filter_cons, hc]
      rw [hfil] at hnodup
      simp only [List.map_cons, List.nodup_cons] at hnodup
      have hstep : sectionInsert m (Doc.map A) c =
          Doc.map (Doc.setAssoc A cl
            (Doc.map (kvs0 ++ [(m.nameOf c, c.content)]))) := by
        simp only [sectionInsert, Doc.getKey, hc, hA, Option.getD_some,
          Doc.setKey]
        rw [setAssoc_of_not_mem kvs0 _ _ hn]
      rw [List.foldl_cons, hstep,
        ih (Doc.setAssoc A cl (Doc.map (kvs0 ++ [(m.nameOf c, c.content)])))
          (kvs0 ++ [(m.nameOf c, c.content)])
          (lookup_setAssoc_self A cl _) hnodup.2 ?fresh]
      · rw [hfil]
        simp
      case fresh =>
        intro c' hc' hcl'
        simp only [List.map_append, List.mem_append]
        push_neg
        refine ⟨hfresh c' (List.mem_cons_of_mem _ hc') hcl', ?_⟩
        simp only [List.map_cons, List.map_nil, List.mem_singleton]
        intro heq
        exact hnodup.1 (by
          rw [← heq]
          exact List.mem_map_of_mem m.nameOf
            (List.mem_filter.mpr ⟨hc', by simp [hcl']⟩))
    · have hfil : (c :: rest).filter (fun c => c.clazz = cl) =
          rest.filter (fun c => c.clazz = cl) := by
        simp [List.filter_cons, hc]
      rw [hfil] at hnodup
      have hstep : (sectionInsert m (Doc.map A) c).getKey cl =
          some (Doc.map kvs0) ∧ ∃ A', sectionInsert m (Doc.map A) c = Doc.map A' ∧
            List.lookup cl A' = some (Doc.map kvs0) := by
        refine ⟨?_, ?_⟩
        · simp only [sectionInsert, Doc.setKey, Doc.getKey]
          rw [lookup_setAssoc_ne _ _ _ _ (fun he => hc he.symm)]
          exact hA
        · refine ⟨_, rfl, ?_⟩
          rw [lookup_setAssoc_ne _ _ _ _ (fun he => hc he.symm)]
          exact hA
      obtain ⟨-, A', hA'eq, hA'⟩ := hstep
      rw [List.foldl_cons, hA'eq,
        ih A' kvs0 hA' hnodup
          (fun c' hc' hcl' => hfresh c' (List.mem_cons_of_mem _ hc') hcl'),
        hfil]

/-- Folding components into the section, starting with the class bucket
absent: the bucket appears exactly when the class has components, and
then holds exactly one entry per component of the class, in order. -/
theorem sectionFold_none (m : ComponentManager) (cl : String) :
    ∀ (comps : List Component) (A : List (String × Doc)),
      List.lookup cl A = none →
      (((comps.filter fun c => c.clazz = cl).map m.nameOf).Nodup) →
      (List.foldl (sectionInsert m) (Doc.map A) comps).getKey cl =
        if ((comps.filter fun c => c.clazz = cl).isEmpty) then none
        else some (Doc.map ((comps.filter fun c => c.clazz = cl).map
          fun c => (m.nameOf c, c.content))) := by
  intro comps
  induction comps with
  | nil =>
    intro A hA _
    simpa [Doc.getKey] using hA
  | cons c rest ih =>
    intro A hA hnodup
    by_cases hc : c.clazz = cl
    · have hfil : (c :: rest).filter (fun c => c.clazz = cl) =
          c :: rest.filter (fun c => c.clazz = cl) := by
        simp [List.filter_cons, hc]
      rw [hfil] at hnodup
      simp only [List.map_cons, List.nodup_cons] at hnodup
      have hstep : sectionInsert m (Doc.map A) c =
          Doc.map (Doc.setAssoc A cl (Doc.map [(m.nameOf c, c.content)])) := by
        simp only [sectionInsert, Doc.getKey, hc, hA, Option.getD_none,
          Doc.setKey, Doc.setAssoc]
      rw [List.foldl_cons, hstep,
        sectionFold_some m cl rest _ [(m.nameOf c, c.content)]
          (lookup_setAssoc_self A cl _) hnodup.2 ?fresh, hfil]
      · simp
      case fresh =>
        intro c' hc' hcl'
        simp only [List.map_cons, List.map_nil, List.mem_singleton]
        intro heq
        exact hnodup.1 (by
          rw [← heq]
          exact List.mem_map_of_mem m.nameOf
            (List.mem_filter.mpr ⟨hc', by simp [hcl']⟩))
    · have hfil : (c :: rest).filter (fun c => c.clazz = cl) =
          rest.filter (fun c => c.clazz = cl) := by
        simp [List.filter_cons, hc]
      rw [hfil] at hnodup
      have hstep : ∃ A', sectionInsert m (Doc.map A) c = Doc.map A' ∧
          List.lookup cl A' = none := by
        refine ⟨_, rfl, ?_⟩
        simp only [Doc.setKey]
        rw [lookup_setAssoc_ne _ _ _ _ (fun he => hc he.symm)]
        exact hA
      obtain ⟨A', hA'eq, hA'⟩ := hstep
      rw [List.foldl_cons, hA'eq, ih A' hA' hnodup, hfil]

/-- `getOrCreate` is idempotent: once a component was returned for a
class and key, asking again returns the same component and leaves the
registry and the cache unchanged. -/
theorem getOrCreate_idem (u : Univ) (m : ComponentManager) (cache : Cache)
    (clazz key : String) (c : Component) (m' : ComponentManager)
    (cache' : Cache)
    (h : ComponentManager.getOrCreate u m cache clazz key =
      .ok (c, m', cache')) :
    ComponentManager.getOrCreate u m' cache' clazz key =
      .ok (c, m', cache') := by
  unfold ComponentManager.getOrCreate at h ⊢
  cases hf : m.components.find? (fun d => d.clazz = clazz && d.key = key) with
  | some c0 =>
    rw [hf] at h
    cases h
    rw [hf]
  | none =>
    rw [hf] at h
    have hsingle : ∀ (d : Doc),
        (List.find? (fun d => d.clazz = clazz && d.key = key)
          (m.components ++ [(⟨clazz, key, d⟩ : Component)])) =
          some ⟨clazz, key, d⟩ := by
      intro d
      rw [find?_append_none _ _ _ hf]
      simp [List.find?]
    by_cases hh : (parseUrl key).isHttp
    · rw [if_pos hh] at h ⊢
      rcases hdl : download u cache (parseUrl key).hrefWoHash with ⟨raw, cache2⟩
      rw [hdl] at h
      cases h
      rw [hsingle]
    · rw [if_neg hh] at h ⊢
      cases hry : readYAML u (parseUrl key).hrefWoHash with
      | error e =>
        rw [hry] at h
        cases h
      | ok raw =>
        rw [hry] at h
        cases h
        rw [hsingle]

/-- Within a class, the resolver-assigned final name determines the
component: two components of the same class with the same final name
are the same component (provided the registry holds no duplicate
(class, target) pair and the manager carries the resolver computed
from its own snapshot). -/
theorem nameOf_injOn (comps : List Component)
    (hpairs : (comps.map fun c => (c.clazz, c.key)).Nodup)
    (m : ComponentManager) (hres : m.resolver = some (resolveNames comps))
    (cl : String) :
    ∀ x ∈ comps, ∀ y ∈ comps, x.clazz = cl → y.clazz = cl →
      m.nameOf x = m.nameOf y → x = y := by
  intro x hx y hy hxc hyc hname
  have hRfst : (resolveNames comps).map Prod.fst =
      comps.map fun c => (c.clazz, c.key) := by
    simpa [resolveNames] using resolveFold_fst comps []
  have hmemx : (x.clazz, x.key) ∈ (resolveNames comps).map Prod.fst := by
    rw [hRfst]
    exact List.mem_map_of_mem _ hx
  have hmemy : (y.clazz, y.key) ∈ (resolveNames comps).map Prod.fst := by
    rw [hRfst]
    exact List.mem_map_of_mem _ hy
  obtain ⟨nx, hnx⟩ :=
    Option.isSome_iff_exists.mp (lookup_isSome_of_mem_fst _ _ hmemx)
  obtain ⟨ny, hny⟩ :=
    Option.isSome_iff_exists.mp (lookup_isSome_of_mem_fst _ _ hmemy)
  have hnamex : m.nameOf x = nx := by
    simp [ComponentManager.nameOf, hres, hnx]
  have hnamey : m.nameOf y = ny := by
    simp [ComponentManager.nameOf, hres, hny]
  have hxy : nx = ny := by rw [← hnamex, ← hnamey, hname]
  subst hxy
  have hex : ((x.clazz, x.key), nx) ∈ resolveNames comps := lookup_mem hnx
  have hey : ((y.clazz, y.key), nx) ∈ resolveNames comps := lookup_mem hny
  have hnodupN := resolveFold_names_nodup comps [] cl (by simp)
  have hfx : ((x.clazz, x.key), nx) ∈
      (resolveNames comps).filter (fun e => e.1.1 = cl) := by
    refine List.mem_filter.mpr ⟨hex, by simp [hxc]⟩
  have hfy : ((y.clazz, y.key), nx) ∈
      (resolveNames comps).filter (fun e => e.1.1 = cl) := by
    refine List.mem_filter.mpr ⟨hey, by simp [hyc]⟩
  have heq := List.inj_on_of_nodup_map (by simpa [resolveNames] using hnodupN)
    hfx hfy (by simp)
  have hpair : (x.clazz, x.key) = (y.clazz, y.key) := congrArg Prod.fst heq
  exact List.inj_on_of_nodup_map hpairs hx hy hpair

/-- **C1**: a given (class, absolute target) pair maps to exactly one
component for the lifetime of a merge pass - `getOrCreate` is
idempotent (first conjunct: the second request returns the very same
component and leaves the registry and cache untouched, so two
directives with the same class and absolute target resolve to the same
component and hence the same final name), and the shared components
section holds exactly one entry per registered component: names inside
a class are pairwise distinct, and the class bucket of the output
section is exactly the list of that class's components, each content
appearing once under its unique name (second conjunct, for a manager
whose snapshot carries no duplicate (class, target) pair and whose
resolver was computed from that snapshot). -/
theorem componentDedup :
    (∀ u m cache clazz key c m' cache',
      ComponentManager.getOrCreate u m cache clazz key =
        .ok (c, m', cache') →
      ComponentManager.getOrCreate u m' cache' clazz key =
        .ok (c, m', cache')) ∧
    (∀ (comps : List Component),
      ((comps.map fun c => (c.clazz, c.key)).Nodup) →
      ∀ m : ComponentManager, m.components = comps →
        m.resolver = some (resolveNames comps) →
        (∀ cl, (((comps.filter fun c => c.clazz = cl).map m.nameOf).Nodup)) ∧
        (∀ cl, m.getComponentsSection.getKey cl =
          if ((comps.filter fun c => c.clazz = cl).isEmpty) then none
          else some (Doc.map ((comps.filter fun c => c.clazz = cl).map
            fun c => (m.nameOf c, c.content))))) := by
  constructor
  · exact fun u m cache clazz key c m' cache' h =>
      getOrCreate_idem u m cache clazz key c m' cache' h
  · intro comps hpairs m hcomps hres
    have hnames : ∀ cl,
        (((comps.filter fun c => c.clazz = cl).map m.nameOf).Nodup) := by
      intro cl
      have hcompsnodup : comps.Nodup := List.Nodup.of_map _ hpairs
      refine List.Nodup.map_on ?_ (List.Nodup.filter _ hcompsnodup)
      intro x hx y hy hname
      have hx' := List.mem_filter.mp hx
      have hy' := List.mem_filter.mp hy
      exact nameOf_injOn comps hpairs m hres cl x hx'.1 y hy'.1
        (by simpa using hx'.2) (by simpa using hy'.2) hname
    refine ⟨hnames, ?_⟩
    intro cl
    have hsec := sectionFold_none m cl comps [] rfl (hnames cl)
    rw [ComponentManager.getComponentsSection, hcomps]
    exact hsec

/-- Witness for C1: a concrete registry creation followed by a second
request for the same (class, target), and concrete distinct names. -/
theorem componentDedup_witness :
    ComponentManager.getOrCreate
      { fs := [("/d/b.yaml", Doc.map [("X", Doc.num 1)])] } {} Cache.empty
      "schemas" "/d/b.yaml#/X" =
      .ok (⟨"schemas", "/d/b.yaml#/X", Doc.num 1⟩,
        ⟨[⟨"schemas", "/d/b.yaml#/X", Doc.num 1⟩], none⟩, Cache.empty) ∧
    ComponentManager.getOrCreate
      { fs := [("/d/b.yaml", Doc.map [("X", Doc.num 1)])] }
      ⟨[⟨"schemas", "/d/b.yaml#/X", Doc.num 1⟩], none⟩ Cache.empty
      "schemas" "/d/b.yaml#/X" =
      .ok (⟨"schemas", "/d/b.yaml#/X", Doc.num 1⟩,
        ⟨[⟨"schemas", "/d/b.yaml#/X", Doc.num 1⟩], none⟩, Cache.empty) ∧
    ((([(⟨"schemas", "/d/a.yaml", Doc.null⟩ : Component),
        ⟨"schemas", "/d/b.yaml", Doc.null⟩].filter
          fun c => c.clazz = "schemas").map
        (ComponentManager.nameOf
          ⟨[⟨"schemas", "/d/a.yaml", Doc.null⟩,
            ⟨"schemas", "/d/b.yaml", Doc.null⟩],
            some (resolveNames
              [⟨"schemas", "/d/a.yaml", Doc.null⟩,
                ⟨"schemas", "/d/b.yaml", Doc.null⟩])⟩)).Nodup) := by
  have h1 : ComponentManager.getOrCreate
      { fs := [("/d/b.yaml", Doc.map [("X", Doc.num 1)])] } {} Cache.empty
      "schemas" "/d/b.yaml#/X" =
      .ok (⟨"schemas", "/d/b.yaml#/X", Doc.num 1⟩,
        ⟨[⟨"schemas", "/d/b.yaml#/X", Doc.num 1⟩], none⟩, Cache.empty) := rfl
  refine ⟨h1, componentDedup.1 _ _ _ _ _ _ _ _ h1, ?_⟩
  exact (componentDedup.2
    [⟨"schemas", "/d/a.yaml", Doc.null⟩, ⟨"schemas", "/d/b.yaml", Doc.null⟩]
    (by decide) _ rfl rfl).1 "schemas"

/-- **C7, counterexample**: the fetch cache is not fresh per merge
invocation.  A first merge (world: the URL serves `{v: 1}`) ends with
the URL cached; the module-scoped cache is never cleared, so the
second, unrelated merge starts with that entry, and even though the
world now serves `{v: 2}` at the same URL, the second merge observes
the entry cached by the first and still produces `{v: 1}`. -/
theorem cacheAcrossMerges_counterexample :
    Merger.merge
      { net := [("http://h/a.yaml", FetchOutcome.ok (Doc.map [("v", Doc.num 1)]))] }
      {} 20 Cache.empty
      (Doc.map [("x", Doc.map [("$include", Doc.str "http://h/a.yaml")])])
      "/d/r.yaml" =
      .ok (Doc.map [("x", Doc.map [("v", Doc.num 1)]), ("components", Doc.map [])],
        [("http://h/a.yaml", Doc.map [("v", Doc.num 1)])]) ∧
    fetchDoc
      { net := [("http://h/a.yaml", FetchOutcome.ok (Doc.map [("v", Doc.num 2)]))] }
      "http://h/a.yaml" = some (Doc.map [("v", Doc.num 2)]) ∧
    Merger.merge
      { net := [("http://h/a.yaml", FetchOutcome.ok (Doc.map [("v", Doc.num 2)]))] }
      {} 20 [("http://h/a.yaml", Doc.map [("v", Doc.num 1)])]
      (Doc.map [("x", Doc.map [("$include", Doc.str "http://h/a.yaml")])])
      "/d/r.yaml" =
      .ok (Doc.map [("x", Doc.map [("v", Doc.num 1)]), ("components", Doc.map [])],
        [("http://h/a.yaml", Doc.map [("v", Doc.num 1)])]) :=
  ⟨rfl, rfl, rfl⟩

/-- **C7, amended**: the fetch cache is module-scoped, not pass-scoped:
`download` serves a cache hit from the stored entry without consulting
the network at all (first conjunct - so a later merge reuses entries
cached by an earlier one, whatever the network would answer now), and
`download` never drops an entry (second conjunct), so nothing in a
merge invocation ever clears the cache. -/
theorem cacheAcrossMerges (u : Univ) (cache : Cache) (url : String) (d : Doc)
    (h : List.lookup url cache = some d) :
    download u cache url = (d, cache) ∧
    (∀ u₂ (c : Cache) url₂, ∀ url' d', List.lookup url' c = some d' →
      List.lookup url' (download u₂ c url₂).2 = some d') := by
  constructor
  · unfold download
    rw [h]
  · intro u₂ c url₂ url' d' h'
    unfold download
    cases hc : List.lookup url₂ c with
    | some d₂ => exact h'
    | none =>
      cases hn : u₂.net.lookup url₂ with
      | none => exact h'
      | some o =>
        cases o with
        | transportError => exact h'
        | badStatus code => exact h'
        | ok d₂ =>
          have hne : (url' == url₂) = false := by
            simp only [beq_eq_false_iff_ne]
            intro he
            rw [he, hc] at h'
            cases h'
          simp [List.lookup, hne, h']

/-- Witness for the amended C7 at a concrete cache hit. -/
theorem cacheAcrossMerges_witness :
    List.lookup "http://h/a.yaml"
      ([("http://h/a.yaml", Doc.map [("v", Doc.num 1)])] : Cache) =
      some (Doc.map [("v", Doc.num 1)]) ∧
    download
      { net := [("http://h/a.yaml", FetchOutcome.ok (Doc.map [("v", Doc.num 2)]))] }
      [("http://h/a.yaml", Doc.map [("v", Doc.num 1)])] "http://h/a.yaml" =
      (Doc.map [("v", Doc.num 1)],
        [("http://h/a.yaml", Doc.map [("v", Doc.num 1)])]) :=
  ⟨rfl,
    (cacheAcrossMerges
      { net := [("http://h/a.yaml", FetchOutcome.ok (Doc.map [("v", Doc.num 2)]))] }
      [("http://h/a.yaml", Doc.map [("v", Doc.num 1)])] "http://h/a.yaml"
      (Doc.map [("v", Doc.num 1)]) rfl).1⟩

/-- Inserting an absent key appends it, without invoking the merge. -/
theorem insertWith_not_mem (mrg : Doc → Doc → Doc)
    (as : List (String × Doc)) (k : String) (bv : Doc)
    (h : k ∉ as.map Prod.fst) :
    insertWith mrg as k bv = as ++ [(k, bv)] := by
  induction as with
  | nil => simp [insertWith]
  | cons hd tl ih =>
    obtain ⟨k0, v0⟩ := hd
    simp only [List.map_cons, List.mem_cons] at h
    push_neg at h
    have hk : k0 ≠ k := fun he => h.1 he.symm
    simp [insertWith, hk, ih h.2]

/-- Folding a key-disjoint association list into another appends it
wholesale: no entry is ever merged. -/
theorem foldKVs_disjoint (mrg : Doc → Doc → Doc) :
    ∀ (bs as : List (String × Doc)),
      (∀ p ∈ bs, p.1 ∉ as.map Prod.fst) →
      ((bs.map Prod.fst).Nodup) →
      foldKVs mrg as bs = as ++ bs := by
  intro bs
  induction bs with
  | nil => intro as _ _; simp [foldKVs]
  | cons hd tl ih =>
    intro as hdisj hnodup
    obtain ⟨k1, b1⟩ := hd
    simp only [List.map_cons, List.nodup_cons] at hnodup
    have hins : insertWith mrg as k1 b1 = as ++ [(k1, b1)] :=
      insertWith_not_mem mrg as k1 b1 (hdisj (k1, b1) (List.mem_cons_self _ _))
    have hrest : ∀ p ∈ tl, p.1 ∉ (as ++ [(k1, b1)]).map Prod.fst := by
      intro p hp
      simp only [List.map_append, List.mem_append, List.map_cons, List.map_nil,
        List.mem_singleton]
      push_neg
      refine ⟨hdisj p (List.mem_cons_of_mem _ hp), ?_⟩
      intro he
      exact hnodup.1 (he ▸ List.mem_map_of_mem Prod.fst hp)
    calc foldKVs mrg as ((k1, b1) :: tl)
        = foldKVs mrg (insertWith mrg as k1 b1) tl := rfl
      _ = (as ++ [(k1, b1)]) ++ tl := by rw [hins, ih _ hrest hnodup.2]
      _ = as ++ ((k1, b1) :: tl) := by simp

/-- **C8**: an include directive whose local target carries a wildcard
produces a mapping whose keys are the matched files' base names with
the extension stripped and whose values are the files' individually
resolved contents.  First conjunct: whatever the glob loop returns is a
mapping listing, in match order, one entry per matched file, keyed by
`basenameNoExt` and holding exactly the result of that file's own
single-file `handleInclude` run.  Second conjunct: such a single-file
run of the combination step on a mapping content returns that resolved
content itself (the scaffold `{key: file}` object disappears).  Third
conjunct: a whole concrete glob merge, end to end. -/
theorem globInclude_mapping (u : Univ) (cfg : Config) :
    (∀ files fuel st key file jp kvs out st',
      Merger.globFold u cfg fuel st key file jp files (Doc.map kvs) =
        .ok (out, st') →
      ∃ pairs : List (String × Doc),
        out = Doc.map (pairs.foldl
          (fun acc p => Doc.setAssoc acc p.1 p.2) kvs) ∧
        List.Forall₂ (fun mf p =>
          p.1 = basenameNoExt mf ∧
          ∃ fuel' st₀ st₁ ov,
            Merger.handleInclude u cfg fuel' st₀
              (Doc.map [(key, Doc.str mf)]) key (Doc.str mf) file
              (jp ++ "." ++ p.1) = .ok (p.2, ov, st₁)) files pairs) ∧
    (∀ fuel k dv v jp (bs : List (String × Doc)),
      getIncludeClass k = none →
      k ∉ bs.map Prod.fst →
      ((bs.map Prod.fst).Nodup) →
      includeMergeStep cfg (fuel + 1) (Doc.map [(k, dv)]) k v jp (Doc.map bs) =
        .ok (Doc.map bs, true)) ∧
    Merger.merge
      { fs := [("/d/sub/p.yaml", Doc.map [("pp", Doc.num 1)]),
          ("/d/sub/q.yaml", Doc.map [("qq", Doc.num 2)])],
        glob := [("/d/sub/*.yaml", ["/d/sub/p.yaml", "/d/sub/q.yaml"])] } {}
      30 Cache.empty
      (Doc.map [("all", Doc.map [("$include", Doc.str "./sub/*.yaml")])])
      "/d/r.yaml" =
      .ok (Doc.map [("all", Doc.map
          [("p", Doc.map [("pp", Doc.num 1)]),
            ("q", Doc.map [("qq", Doc.num 2)])]),
          ("components", Doc.map [])], []) := by
  refine ⟨?_, ?_, rfl⟩
  · intro files
    induction files with
    | nil =>
      intro fuel st key file jp kvs out st' h
      match fuel with
      | 0 => cases h
      | n + 1 =>
        cases h
        exact ⟨[], rfl, List.Forall₂.nil⟩
    | cons mf rest ih =>
      intro fuel st key file jp kvs out st' h
      match fuel with
      | 0 => cases h
      | n + 1 =>
        rw [Merger.globFold] at h
        cases hh : Merger.handleInclude u cfg n st
            (Doc.map [(key, Doc.str mf)]) key (Doc.str mf) file
            (jp ++ "." ++ basenameNoExt mf) with
        | fuelOut => rw [hh] at h; cases h
        | fatal e => rw [hh] at h; cases h
        | ok r3 =>
          obtain ⟨r, ov, st₁⟩ := r3
          rw [hh] at h
          have h' : Merger.globFold u cfg n st₁ key file jp rest
              (Doc.map (Doc.setAssoc kvs (basenameNoExt mf) r)) =
              .ok (out, st') := h
          obtain ⟨pairs, hout, hfa⟩ := ih n st₁ key file jp
            (Doc.setAssoc kvs (basenameNoExt mf) r) out st' h'
          refine ⟨(basenameNoExt mf, r) :: pairs, ?_, ?_⟩
          · simpa using hout
          · exact List.Forall₂.cons ⟨rfl, n, st, st₁, ov, hh⟩ hfa
  · intro fuel k dv v jp bs hcls hnot hnodup
    have harr : (Doc.map bs).isArrayLike = false := rfl
    rw [includeMergeStep]
    simp only [harr, Bool.false_eq_true, if_false]
    have hproc : (processInclude k (Doc.map bs) cfg).1 = Doc.map bs := by
      simp [processInclude, hcls]
    rw [hproc]
    have hlm : lodashMerge (fuel + 1) (Doc.map [(k, dv)]) (Doc.map bs) =
        Doc.map ((k, dv) :: bs) := by
      rw [lodashMerge]
      rw [foldKVs_disjoint _ bs [(k, dv)]
        (by
          intro p hp
          simp only [List.map_cons, List.map_nil, List.mem_singleton]
          intro he
          exact hnot (he ▸ List.mem_map_of_mem Prod.fst hp))
        hnodup]
      rfl
    rw [hlm]
    have hdel : (Doc.map ((k, dv) :: bs)).deleteKey k = Doc.map bs := by
      simp only [Doc.deleteKey, List.filter_cons]
      rw [if_neg (by simp)]
      congr 1
      refine List.filter_eq_self.mpr ?_
      intro p hp
      simp only [ne_eq, decide_eq_true_eq]
      intro he
      exact hnot (he ▸ List.mem_map_of_mem Prod.fst hp)
    rw [hdel]
    all_goals
      intro a ha
      exact Doc.noConfusion ha

/-- Witness for C8 at the concrete two-file glob expansion. -/
theorem globInclude_mapping_witness :
    (∃ pairs : List (String × Doc),
      Doc.map [("p", Doc.map [("pp", Doc.num 1)]),
        ("q", Doc.map [("qq", Doc.num 2)])] =
        Doc.map (pairs.foldl (fun acc p => Doc.setAssoc acc p.1 p.2) []) ∧
      List.Forall₂ (fun mf p =>
        p.1 = basenameNoExt mf ∧
        ∃ fuel' st₀ st₁ ov,
          Merger.handleInclude
            { fs := [("/d/sub/p.yaml", Doc.map [("pp", Doc.num 1)]),
                ("/d/sub/q.yaml", Doc.map [("qq", Doc.num 2)])],
              glob := [("/d/sub/*.yaml", ["/d/sub/p.yaml", "/d/sub/q.yaml"])] }
            {} fuel' st₀ (Doc.map [("$include", Doc.str mf)]) "$include"
            (Doc.str mf) "/d/r.yaml" ("$.all" ++ "." ++ p.1) =
            .ok (p.2, ov, st₁)) ["sub/p.yaml", "sub/q.yaml"] pairs) := by
  exact (globInclude_mapping _ {}).1 ["sub/p.yaml", "sub/q.yaml"] 10
    ⟨{}, Cache.empty⟩ "$include" "/d/r.yaml" "$.all" []
    (Doc.map [("p", Doc.map [("pp", Doc.num 1)]),
      ("q", Doc.map [("qq", Doc.num 2)])]) ⟨{}, Cache.empty⟩ rfl

/-- Binding after exhausted fuel stays exhausted. -/
theorem bind_fuelOut {α β : Type} (r : Res α) (f : α → Res β)
    (h : r = .fuelOut) : r >>= f = .fuelOut := by
  rw [h]
  rfl

/-- The self-referential in-document inclusion runs the walker out of
any amount of fuel: each cycle re-reads the containing file, slices the
same node out of it, and walks it again in an unchanged state. -/
theorem includeCycle_aux (n : Nat) :
    Merger.mergeRefs
      { fs := [("/d/c.yaml",
          Doc.map [("a", Doc.map [("$include", Doc.str "#/a")])])] }
      {} n ⟨{}, Cache.empty⟩ (Doc.map [("$include", Doc.str "#/a")])
      "/d/c.yaml" "$.a" = .fuelOut := by
  induction n using Nat.strong_induction_on with
  | _ n ih =>
    match n with
    | 0 => rfl
    | 1 => rfl
    | 2 => rfl
    | 3 => rfl
    | i + 4 =>
      have hA := ih i (by omega)
      exact bind_fuelOut _ _ (bind_fuelOut _ _ hA)

/-- Lifting the cycle to the document root: walking the whole file runs
out of any amount of fuel. -/
theorem includeCycle_root (n : Nat) :
    Merger.mergeRefs
      { fs := [("/d/c.yaml",
          Doc.map [("a", Doc.map [("$include", Doc.str "#/a")])])] }
      {} n ⟨{}, Cache.empty⟩
      (Doc.map [("a", Doc.map [("$include", Doc.str "#/a")])])
      "/d/c.yaml" "$" = .fuelOut := by
  match n with
  | 0 => rfl
  | 1 => rfl
  | m + 2 => exact bind_fuelOut _ _ (includeCycle_aux m)

set_option maxRecDepth 8192 in
/-- **C3, counterexample**: resolution of a cyclic input graph does
not always terminate.  The file `/d/c.yaml` contains
`a: \x7b $include: "#/a" \x7d`, an include directive pointing back at its
own enclosing node.  Include handling has no registry guard (the
`manager.get(val)` lookup only ever hits for reference-registered
components, never for a plain in-document include target), so the
walker re-reads the file, slices out the same node and recurses in an
unchanged state forever: the embedded `merge` exhausts a fuel bound of
1000 on this two-node document instead of producing an output (fuel
only decreases at genuinely recursive steps, and `includeCycle_root`
proves the same for every other fuel bound). -/
theorem refCycleTermination_counterexample :
    Merger.merge
      { fs := [("/d/c.yaml",
          Doc.map [("a", Doc.map [("$include", Doc.str "#/a")])])] }
      {} 1000 Cache.empty
      (Doc.map [("a", Doc.map [("$include", Doc.str "#/a")])])
      "/d/c.yaml" = .fuelOut :=
  bind_fuelOut _ _ (includeCycle_root 1000)

/-- **C3, amended**: the cycle guard covers reference directives.
First conjunct: handling a file reference whose component is already
registered (lines 137-140 of merger.js) only rewrites the directive to
the canonical local pointer of the registered component - it does not
recurse into the component content again, and it leaves the registry
and the download cache exactly as they were.  Second conjunct: a
reference target that references back to itself terminates and yields
an output whose components section holds exactly one component for the
cyclic target (`/d/b.yaml#/x` references itself; the walk re-encounters
it once, the guard stops the branch, and the merge completes).  Include
directives enjoy no such guard, which is why the original claim's
"any input graph, even a cyclic one, terminates" fails. -/
theorem refCycleTermination_amended :
    (∀ (u : Univ) (cfg : Config) (fuel : Nat) (st : MState) (obj : Doc)
       (key : String) (val : Doc) (file jsonPath target : String)
       (cmp : Component),
      target = (if (parseUrl file).isHttp then
          urlResolve (posixDirname (parseUrl file).hrefWoHash ++ "/")
            val.asString
        else
          posixJoin (posixDirname (parseUrl file).hrefWoHash) val.asString) →
      shouldInclude (getRefType jsonPath) = false →
      (parseUrl val.asString).isHttp = false →
      (parseUrl val.asString).isLocal = false →
      st.manager.components.find?
        (fun c => c.clazz = getRefType jsonPath && c.key = target) =
        some cmp →
      st.manager.existsKey target = true →
      Merger.handleRef u cfg (fuel + 1 + 1) st obj key val file jsonPath =
        .ok ((obj.setKey key
            (mergeOrOverwrite (fuel + 1) (obj.getKey key) val)).setKey key
              (Doc.str (st.manager.getLocalRef cmp)), st)) ∧
    Merger.merge
      { fs := [("/d/a.yaml",
          Doc.map [("s", Doc.map [("$ref", Doc.str "./b.yaml#/x")])]),
         ("/d/b.yaml",
          Doc.map [("x", Doc.map [("$ref", Doc.str "./b.yaml#/x")])])] }
      {} 20 Cache.empty
      (Doc.map [("s", Doc.map [("$ref", Doc.str "./b.yaml#/x")])])
      "/d/a.yaml" =
      .ok (Doc.map [
        ("s", Doc.map [("$ref", Doc.str "#/components/schemas/b.yaml")]),
        ("components", Doc.map [("schemas", Doc.map [("b.yaml",
          Doc.map [("$ref", Doc.str "#/components/schemas/b.yaml")])])])],
        Cache.empty) := by
  refine ⟨?_, rfl⟩
  intro u cfg fuel st obj key val file jsonPath target cmp
  intro h0 h1 h2 h3 hfind hexists
  rw [Merger.handleRef]
  simp only [h1, h2, h3, Bool.false_eq_true, if_false,
    ComponentManager.getOrCreate, ← h0, hfind]
  rw [Merger.refFinish]
  simp only [hexists, if_true]

/-- Witness for the C3 guard at a concrete pre-registered component:
the reference is rewritten to the local pointer and nothing else
changes. -/
theorem refCycleTermination_amended_witness :
    Merger.handleRef ({} : Univ) {} 2
      ⟨⟨[⟨"schemas", "/d/b.yaml#/x", Doc.null⟩], none⟩, Cache.empty⟩
      (Doc.map [("$ref", Doc.str "./b.yaml#/x")]) "$ref"
      (Doc.str "./b.yaml#/x") "/d/b.yaml" "$.s.$ref" =
      .ok (Doc.map [("$ref", Doc.str "#/components/schemas/b.yaml")],
        ⟨⟨[⟨"schemas", "/d/b.yaml#/x", Doc.null⟩], none⟩, Cache.empty⟩) :=
  refCycleTermination_amended.1 {} {} 0
    ⟨⟨[⟨"schemas", "/d/b.yaml#/x", Doc.null⟩], none⟩, Cache.empty⟩
    (Doc.map [("$ref", Doc.str "./b.yaml#/x")]) "$ref"
    (Doc.str "./b.yaml#/x") "/d/b.yaml" "$.s.$ref" "/d/b.yaml#/x"
    ⟨"schemas", "/d/b.yaml#/x", Doc.null⟩
    rfl rfl rfl rfl rfl rfl

/-- A consistent fetch of a document can only come from the network
table. -/
theorem fetchDoc_net {u : Univ} {url : String} {d : Doc}
    (h : fetchDoc u url = some d) :
    u.net.lookup url = some (FetchOutcome.ok d) := by
  unfold fetchDoc at h
  split at h
  next d0 heq => cases h; exact heq
  next => exact absurd h (by simp)

/-- Extending a consistent cache with the fetched document keeps it
consistent. -/
theorem consistent_cons {u : Univ} {c : Cache} {url : String} {d : Doc}
    (hc : Consistent u c) (hd : fetchDoc u url = some d) :
    Consistent u ((url, d) :: c) := by
  intro url2 d2 h2
  rw [List.lookup] at h2
  split at h2
  case h_1 heq =>
    cases h2
    rw [eq_of_beq heq]
    exact hd
  case h_2 => exact hc _ _ h2

/-- `download` on two consistent caches returns the same document and
keeps both caches consistent. -/
theorem download_rel {u : Univ} {c1 c2 : Cache} (url : String)
    (h1 : Consistent u c1) (h2 : Consistent u c2) :
    (download u c1 url).1 = (download u c2 url).1 ∧
    Consistent u (download u c1 url).2 ∧
    Consistent u (download u c2 url).2 := by
  unfold download
  cases hl1 : List.lookup url c1 with
  | some d1 =>
    have hf1 := h1 _ _ hl1
    cases hl2 : List.lookup url c2 with
    | some d2 =>
      have hf2 := h2 _ _ hl2
      rw [hf1] at hf2
      cases hf2
      exact ⟨rfl, h1, h2⟩
    | none =>
      rw [fetchDoc_net hf1]
      exact ⟨rfl, h1, consistent_cons h2 hf1⟩
  | none =>
    cases hl2 : List.lookup url c2 with
    | some d2 =>
      have hf2 := h2 _ _ hl2
      rw [fetchDoc_net hf2]
      exact ⟨rfl, consistent_cons h1 hf2, h2⟩
    | none =>
      cases hn : u.net.lookup url with
      | none => exact ⟨rfl, h1, h2⟩
      | some o =>
        cases o with
        | transportError => exact ⟨rfl, h1, h2⟩
        | badStatus code => exact ⟨rfl, h1, h2⟩
        | ok d =>
          have hd : fetchDoc u url = some d := by unfold fetchDoc; rw [hn]
          exact ⟨rfl, consistent_cons h1 hd, consistent_cons h2 hd⟩

/-- `getOrCreate` from the same registry and two consistent caches:
related outcomes. -/
theorem goc_rel (u : Univ) (m : ComponentManager) {c1 c2 : Cache}
    (clazz key : String)
    (h1 : Consistent u c1) (h2 : Consistent u c2) :
    GocRel u (ComponentManager.getOrCreate u m c1 clazz key)
      (ComponentManager.getOrCreate u m c2 clazz key) := by
  simp only [ComponentManager.getOrCreate]
  split
  next c hfind => exact ⟨rfl, rfl, h1, h2⟩
  next hfind =>
    split
    next hh =>
      obtain ⟨hdoc, hc1a, hc2a⟩ := download_rel
        (parseUrl key).hrefWoHash h1 h2
      cases hd1 : download u c1 (parseUrl key).hrefWoHash with
      | mk raw1 k1 =>
      cases hd2 : download u c2 (parseUrl key).hrefWoHash with
      | mk raw2 k2 =>
      rw [hd2] at hdoc hc2a
      rw [hd1] at hdoc hc1a
      dsimp only at hdoc hc1a hc2a ⊢
      rw [hdoc]
      exact ⟨rfl, rfl, hc1a, hc2a⟩
    next hh =>
      cases readYAML u (parseUrl key).hrefWoHash with
      | error e => exact rfl
      | ok raw => exact ⟨rfl, rfl, h1, h2⟩

/-- Binding related fueled results with pointwise related continuations
yields related results. -/
theorem resRelWith_bind {α β γ δ : Type} {R : α → β → Prop}
    {S : γ → δ → Prop} {r1 : Res α} {r2 : Res β}
    {f1 : α → Res γ} {f2 : β → Res δ}
    (h : ResRelWith R r1 r2)
    (hf : ∀ a b, R a b → ResRelWith S (f1 a) (f2 b)) :
    ResRelWith S (r1 >>= f1) (r2 >>= f2) := by
  cases r1 <;> cases r2 <;>
    first
      | exact (h : False).elim
      | trivial
      | exact h
      | exact hf _ _ h

/-- `download_rel` phrased on the equations produced by case splits. -/
theorem download_rel_eq {u : Univ} {c1 c2 : Cache} {url : String}
    {p1 p2 : Doc × Cache}
    (h1 : Consistent u c1) (h2 : Consistent u c2)
    (e1 : download u c1 url = p1) (e2 : download u c2 url = p2) :
    p1.1 = p2.1 ∧ Consistent u p1.2 ∧ Consistent u p2.2 := by
  subst e1
  subst e2
  exact download_rel url h1 h2

/-- `goc_rel` phrased on the equations produced by case splits. -/
theorem goc_rel_eq (u : Univ) (m : ComponentManager) {c1 c2 : Cache}
    {clazz key : String}
    {r1 r2 : Except String (Component × ComponentManager × Cache)}
    (h1 : Consistent u c1) (h2 : Consistent u c2)
    (e1 : ComponentManager.getOrCreate u m c1 clazz key = r1)
    (e2 : ComponentManager.getOrCreate u m c2 clazz key = r2) :
    GocRel u r1 r2 := by
  subst e1
  subst e2
  exact goc_rel u m clazz key h1 h2

/-- Every walker function, run twice from equal registries and two
world-consistent download caches, produces equal documents and equal
registries; the two output caches may differ but stay consistent.
Proved for all seven mutually recursive functions at once by induction
on the fuel. -/
theorem walkerRel (u : Univ) (cfg : Config) : ∀ fuel : Nat,
    (∀ s1 s2 obj file jp, StRel u s1 s2 →
      ResRelWith (PairRel u) (Merger.mergeRefs u cfg fuel s1 obj file jp)
        (Merger.mergeRefs u cfg fuel s2 obj file jp)) ∧
    (∀ s1 s2 ret es file jp, StRel u s1 s2 →
      ResRelWith (PairRel u)
        (Merger.mergeRefsLoop u cfg fuel s1 ret es file jp)
        (Merger.mergeRefsLoop u cfg fuel s2 ret es file jp)) ∧
    (∀ s1 s2 obj key val file jp, StRel u s1 s2 →
      ResRelWith (PairRel u)
        (Merger.handleRef u cfg fuel s1 obj key val file jp)
        (Merger.handleRef u cfg fuel s2 obj key val file jp)) ∧
    (∀ s1 s2 obj1 key ce cmp nextFile jp, StRel u s1 s2 →
      ResRelWith (PairRel u)
        (Merger.refFinish u cfg fuel s1 obj1 key ce cmp nextFile jp)
        (Merger.refFinish u cfg fuel s2 obj1 key ce cmp nextFile jp)) ∧
    (∀ s1 s2 obj key val file jp, StRel u s1 s2 →
      ResRelWith (TripRel u)
        (Merger.handleInclude u cfg fuel s1 obj key val file jp)
        (Merger.handleInclude u cfg fuel s2 obj key val file jp)) ∧
    (∀ s1 s2 key file jp ms content, StRel u s1 s2 →
      ResRelWith (PairRel u)
        (Merger.globFold u cfg fuel s1 key file jp ms content)
        (Merger.globFold u cfg fuel s2 key file jp ms content)) ∧
    (∀ s1 s2 obj2 key v content nextFile jp, StRel u s1 s2 →
      ResRelWith (TripRel u)
        (Merger.finishInclude u cfg fuel s1 obj2 key v content nextFile jp)
        (Merger.finishInclude u cfg fuel s2 obj2 key v content nextFile jp)) := by
  intro fuel
  induction fuel with
  | zero =>
    refine ⟨?_, ?_, ?_, ?_, ?_, ?_, ?_⟩ <;> · intros; trivial
  | succ n ih =>
    obtain ⟨ihMR, ihLoop, ihHR, ihRF, ihHI, ihGF, ihFI⟩ := ih
    refine ⟨?_, ?_, ?_, ?_, ?_, ?_, ?_⟩
    -- mergeRefs
    · intro s1 s2 obj file jp hst
      simp only [Merger.mergeRefs]
      split
      next => exact ⟨rfl, hst⟩
      next => exact ihLoop _ _ _ _ _ _ hst
    -- mergeRefsLoop
    · intro s1 s2 ret es file jp hst
      cases es with
      | nil => simp only [Merger.mergeRefsLoop]; exact ⟨rfl, hst⟩
      | cons kv rest =>
        obtain ⟨key, val⟩ := kv
        simp only [Merger.mergeRefsLoop]
        split
        next =>
          refine resRelWith_bind (ihHR _ _ _ _ _ _ _ hst) ?_
          intro a b hab
          obtain ⟨d1, t1⟩ := a
          obtain ⟨d2, t2⟩ := b
          obtain ⟨hd, ht⟩ := (hab : _ ∧ _)
          cases hd
          exact ihLoop _ _ _ _ _ _ ht
        next =>
          split
          next =>
            refine resRelWith_bind (ihHI _ _ _ _ _ _ _ hst) ?_
            intro a b hab
            obtain ⟨r1, o1, t1⟩ := a
            obtain ⟨r2, o2, t2⟩ := b
            obtain ⟨hr, ho, ht⟩ := (hab : _ ∧ _ ∧ _)
            cases hr
            exact ihLoop _ _ _ _ _ _ ht
          next =>
            refine resRelWith_bind (ihMR _ _ _ _ _ hst) ?_
            intro a b hab
            obtain ⟨d1, t1⟩ := a
            obtain ⟨d2, t2⟩ := b
            obtain ⟨hd, ht⟩ := (hab : _ ∧ _)
            cases hd
            exact ihLoop _ _ _ _ _ _ ht
    -- handleRef
    · intro s1 s2 obj key val file jp hst
      obtain ⟨m1, k1⟩ := s1
      obtain ⟨m2, k2⟩ := s2
      obtain ⟨hm, hc1, hc2⟩ := (hst : _ ∧ _ ∧ _)
      dsimp only at hm hc1 hc2
      subst hm
      simp only [Merger.handleRef]
      split
      next =>
        refine resRelWith_bind (ihHI _ _ _ _ _ _ _ ?_) ?_
        · exact ⟨rfl, hc1, hc2⟩
        intro a b hab
        obtain ⟨r1, o1, t1⟩ := a
        obtain ⟨r2, o2, t2⟩ := b
        obtain ⟨hr, ho, ht⟩ := (hab : _ ∧ _ ∧ _)
        cases ho
        exact ⟨rfl, ht⟩
      next =>
        split
        next =>
          -- remote reference
          split
          next e1 heq1 =>
            split
            next e2 heq2 =>
              exact goc_rel_eq u m1 hc1 hc2 heq1 heq2
            next c2a m2a k2a heq2 =>
              exact ((goc_rel_eq u m1 hc1 hc2 heq1 heq2 : GocRel u _ _) :
                False).elim
          next c1a m1a k1a heq1 =>
            split
            next e2 heq2 =>
              exact ((goc_rel_eq u m1 hc1 hc2 heq1 heq2 : GocRel u _ _) :
                False).elim
            next c2a m2a k2a heq2 =>
              obtain ⟨hcq, hmq, hcon1, hcon2⟩ :=
                (goc_rel_eq u m1 hc1 hc2 heq1 heq2 : _ ∧ _ ∧ _ ∧ _)
              cases hcq
              cases hmq
              refine ihRF _ _ _ _ _ _ _ _ ?_
              exact ⟨rfl, hcon1, hcon2⟩
        next =>
          split
          next =>
            -- in-document pointer
            split
            next => exact ⟨rfl, rfl, hc1, hc2⟩
            next =>
              by_cases hh : (parseUrl val.asString).hash = "#/"
              · simp only [if_pos hh]
                split
                next e1 heq1 =>
                  split
                  next e2 heq2 =>
                    exact goc_rel_eq u m1 hc1 hc2 heq1 heq2
                  next c2a m2a k2a heq2 =>
                    exact ((goc_rel_eq u m1 hc1 hc2 heq1 heq2 : GocRel u _ _) :
                      False).elim
                next c1a m1a k1a heq1 =>
                  split
                  next e2 heq2 =>
                    exact ((goc_rel_eq u m1 hc1 hc2 heq1 heq2 : GocRel u _ _) :
                      False).elim
                  next c2a m2a k2a heq2 =>
                    obtain ⟨hcq, hmq, hcon1, hcon2⟩ :=
                      (goc_rel_eq u m1 hc1 hc2 heq1 heq2 : _ ∧ _ ∧ _ ∧ _)
                    cases hcq
                    cases hmq
                    refine ihRF _ _ _ _ _ _ _ _ ?_
                    exact ⟨rfl, hcon1, hcon2⟩
              · simp only [if_neg hh]
                split
                next e1 heq1 =>
                  split
                  next e2 heq2 =>
                    exact goc_rel_eq u m1 hc1 hc2 heq1 heq2
                  next c2a m2a k2a heq2 =>
                    exact ((goc_rel_eq u m1 hc1 hc2 heq1 heq2 : GocRel u _ _) :
                      False).elim
                next c1a m1a k1a heq1 =>
                  split
                  next e2 heq2 =>
                    exact ((goc_rel_eq u m1 hc1 hc2 heq1 heq2 : GocRel u _ _) :
                      False).elim
                  next c2a m2a k2a heq2 =>
                    obtain ⟨hcq, hmq, hcon1, hcon2⟩ :=
                      (goc_rel_eq u m1 hc1 hc2 heq1 heq2 : _ ∧ _ ∧ _ ∧ _)
                    cases hcq
                    cases hmq
                    refine ihRF _ _ _ _ _ _ _ _ ?_
                    exact ⟨rfl, hcon1, hcon2⟩
          next =>
            -- relative file reference
            by_cases hf : (parseUrl file).isHttp = true
            · simp only [if_pos hf]
              split
              next e1 heq1 =>
                split
                next e2 heq2 =>
                  exact goc_rel_eq u m1 hc1 hc2 heq1 heq2
                next c2a m2a k2a heq2 =>
                  exact ((goc_rel_eq u m1 hc1 hc2 heq1 heq2 : GocRel u _ _) :
                    False).elim
              next c1a m1a k1a heq1 =>
                split
                next e2 heq2 =>
                  exact ((goc_rel_eq u m1 hc1 hc2 heq1 heq2 : GocRel u _ _) :
                    False).elim
                next c2a m2a k2a heq2 =>
                  obtain ⟨hcq, hmq, hcon1, hcon2⟩ :=
                    (goc_rel_eq u m1 hc1 hc2 heq1 heq2 : _ ∧ _ ∧ _ ∧ _)
                  cases hcq
                  cases hmq
                  refine ihRF _ _ _ _ _ _ _ _ ?_
                  exact ⟨rfl, hcon1, hcon2⟩
            · simp only [if_neg hf]
              split
              next e1 heq1 =>
                split
                next e2 heq2 =>
                  exact goc_rel_eq u m1 hc1 hc2 heq1 heq2
                next c2a m2a k2a heq2 =>
                  exact ((goc_rel_eq u m1 hc1 hc2 heq1 heq2 : GocRel u _ _) :
                    False).elim
              next c1a m1a k1a heq1 =>
                split
                next e2 heq2 =>
                  exact ((goc_rel_eq u m1 hc1 hc2 heq1 heq2 : GocRel u _ _) :
                    False).elim
                next c2a m2a k2a heq2 =>
                  obtain ⟨hcq, hmq, hcon1, hcon2⟩ :=
                    (goc_rel_eq u m1 hc1 hc2 heq1 heq2 : _ ∧ _ ∧ _ ∧ _)
                  cases hcq
                  cases hmq
                  refine ihRF _ _ _ _ _ _ _ _ ?_
                  exact ⟨rfl, hcon1, hcon2⟩
    -- refFinish
    · intro s1 s2 obj1 key ce cmp nextFile jp hst
      obtain ⟨m1, k1⟩ := s1
      obtain ⟨m2, k2⟩ := s2
      obtain ⟨hm, hc1, hc2⟩ := (hst : _ ∧ _ ∧ _)
      dsimp only at hm hc1 hc2
      subst hm
      simp only [Merger.refFinish]
      split
      next => exact ⟨rfl, rfl, hc1, hc2⟩
      next =>
        refine resRelWith_bind (ihMR _ _ _ _ _ ?_) ?_
        · exact ⟨rfl, hc1, hc2⟩
        intro a b hab
        obtain ⟨d1, t1⟩ := a
        obtain ⟨d2, t2⟩ := b
        obtain ⟨hd, ht⟩ := (hab : _ ∧ _)
        cases hd
        obtain ⟨htm, htc1, htc2⟩ := (ht : _ ∧ _ ∧ _)
        exact ⟨rfl, by rw [htm], htc1, htc2⟩
    -- handleInclude
    · intro s1 s2 obj key val file jp hst
      obtain ⟨m1, k1⟩ := s1
      obtain ⟨m2, k2⟩ := s2
      obtain ⟨hm, hc1, hc2⟩ := (hst : _ ∧ _ ∧ _)
      dsimp only at hm hc1 hc2
      subst hm
      simp only [Merger.handleInclude]
      split
      next =>
        obtain ⟨hdoc, hca, hcb⟩ := download_rel
          (parseUrl val.asString).hrefWoHash hc1 hc2
        rw [hdoc]
        refine ihFI _ _ _ _ _ _ _ _ ?_
        exact ⟨rfl, hca, hcb⟩
      next =>
        split
        next =>
          split
          next cmpv heq => exact ⟨rfl, rfl, rfl, hc1, hc2⟩
          next heq =>
            split
            next e heq2 => exact rfl
            next content heq2 =>
              refine ihFI _ _ _ _ _ _ _ _ ?_
              exact ⟨rfl, hc1, hc2⟩
        next =>
          split
          next hfile =>
            split
            next htgt =>
              obtain ⟨hdoc, hca, hcb⟩ := download_rel
                (parseUrl (urlResolve
                  (posixDirname (parseUrl file).hrefWoHash ++ "/")
                  val.asString)).hrefWoHash hc1 hc2
              rw [hdoc]
              refine ihFI _ _ _ _ _ _ _ _ ?_
              exact ⟨rfl, hca, hcb⟩
            next htgt =>
              split
              next hglob =>
                refine resRelWith_bind (ihGF _ _ _ _ _ _ _ ?_) ?_
                · exact ⟨rfl, hc1, hc2⟩
                intro a b hab
                obtain ⟨d1, t1⟩ := a
                obtain ⟨d2, t2⟩ := b
                obtain ⟨hd, ht⟩ := (hab : _ ∧ _)
                cases hd
                exact ihFI _ _ _ _ _ _ _ _ ht
              next hglob =>
                split
                next e heq2 => exact rfl
                next content heq2 =>
                  refine ihFI _ _ _ _ _ _ _ _ ?_
                  exact ⟨rfl, hc1, hc2⟩
          next hfile =>
            split
            next htgt =>
              obtain ⟨hdoc, hca, hcb⟩ := download_rel
                (parseUrl (posixJoin
                  (posixDirname (parseUrl file).hrefWoHash)
                  val.asString)).hrefWoHash hc1 hc2
              rw [hdoc]
              refine ihFI _ _ _ _ _ _ _ _ ?_
              exact ⟨rfl, hca, hcb⟩
            next htgt =>
              split
              next hglob =>
                refine resRelWith_bind (ihGF _ _ _ _ _ _ _ ?_) ?_
                · exact ⟨rfl, hc1, hc2⟩
                intro a b hab
                obtain ⟨d1, t1⟩ := a
                obtain ⟨d2, t2⟩ := b
                obtain ⟨hd, ht⟩ := (hab : _ ∧ _)
                cases hd
                exact ihFI _ _ _ _ _ _ _ _ ht
              next hglob =>
                split
                next e heq2 => exact rfl
                next content heq2 =>
                  refine ihFI _ _ _ _ _ _ _ _ ?_
                  exact ⟨rfl, hc1, hc2⟩
    -- globFold
    · intro s1 s2 key file jp ms content hst
      cases ms with
      | nil => simp only [Merger.globFold]; exact ⟨rfl, hst⟩
      | cons mf rest =>
        simp only [Merger.globFold]
        refine resRelWith_bind (ihHI _ _ _ _ _ _ _ hst) ?_
        intro a b hab
        obtain ⟨r1, o1, t1⟩ := a
        obtain ⟨r2, o2, t2⟩ := b
        obtain ⟨hr, ho, ht⟩ := (hab : _ ∧ _ ∧ _)
        cases hr
        exact ihGF _ _ _ _ _ _ _ ht
    -- finishInclude
    · intro s1 s2 obj2 key v content nextFile jp hst
      simp only [Merger.finishInclude]
      refine resRelWith_bind (ihMR _ _ _ _ _ hst) ?_
      intro a b hab
      obtain ⟨d1, t1⟩ := a
      obtain ⟨d2, t2⟩ := b
      obtain ⟨hd, ht⟩ := (hab : _ ∧ _)
      cases hd
      dsimp only
      split
      next e heq => exact rfl
      next result inPlace heq => exact ⟨rfl, rfl, ht⟩

/-- The two-pass driver run twice from two world-consistent caches
produces the same document (both passes, the resolver names and the
assembled components section agree); only the download caches may
differ, and they stay consistent. -/
theorem mergeRel (u : Univ) (cfg : Config) (fuel : Nat) {c1 c2 : Cache}
    (doc : Doc) (docPath : String)
    (h1 : Consistent u c1) (h2 : Consistent u c2) :
    ResRelWith
      (fun (p q : Doc × Cache) =>
        p.1 = q.1 ∧ Consistent u p.2 ∧ Consistent u q.2)
      (Merger.merge u cfg fuel c1 doc docPath)
      (Merger.merge u cfg fuel c2 doc docPath) := by
  obtain ⟨hMR, -, -, -, -, -, -⟩ := walkerRel u cfg fuel
  simp only [Merger.merge]
  refine resRelWith_bind (hMR _ _ _ _ _ ?_) ?_
  · exact ⟨rfl, h1, h2⟩
  intro a b hab
  obtain ⟨d1, t1⟩ := a
  obtain ⟨d2, t2⟩ := b
  obtain ⟨hd, ht⟩ := (hab : _ ∧ _)
  cases hd
  obtain ⟨htm, htc1, htc2⟩ := (ht : _ ∧ _ ∧ _)
  dsimp only
  rw [htm]
  refine resRelWith_bind (hMR _ _ _ _ _ ?_) ?_
  · exact ⟨rfl, htc1, htc2⟩
  intro a2 b2 hab2
  obtain ⟨e1, s1x⟩ := a2
  obtain ⟨e2, s2x⟩ := b2
  obtain ⟨he, ht2⟩ := (hab2 : _ ∧ _)
  cases he
  obtain ⟨htm2, htc1b, htc2b⟩ := (ht2 : _ ∧ _ ∧ _)
  exact ⟨by rw [htm2], htc1b, htc2b⟩

/-- **C5**: determinism across repeated runs.  Starting from any
world-consistent download cache (in particular the empty cache of a
fresh process), a merge that succeeds leaves a consistent cache, and
re-running the same merge on the same unchanged world - even through
the cache populated by the first run - produces the identical output
document, resolver-assigned component names, key order and all (the
model's mappings are insertion-ordered lists, so document equality is
key-order equality). -/
theorem mergeDeterministic (u : Univ) (cfg : Config) (fuel : Nat)
    (cache : Cache) (doc : Doc) (docPath : String) (out1 out2 : Doc)
    (c1 c2 : Cache)
    (hc : Consistent u cache)
    (hrun1 : Merger.merge u cfg fuel cache doc docPath = .ok (out1, c1))
    (hrun2 : Merger.merge u cfg fuel c1 doc docPath = .ok (out2, c2)) :
    out1 = out2 ∧ Consistent u c1 ∧ Consistent u c2 := by
  have hself := mergeRel u cfg fuel doc docPath hc hc
  rw [hrun1] at hself
  obtain ⟨-, hc1, -⟩ := (hself : _ ∧ _ ∧ _)
  have hrel := mergeRel u cfg fuel doc docPath hc hc1
  rw [hrun1, hrun2] at hrel
  obtain ⟨hout, -, hc2b⟩ := (hrel : _ ∧ _ ∧ _)
  exact ⟨hout, hc1, hc2b⟩

/-- Witness for C5: a concrete merge over the network run twice in one
process, the second run through the cache left by the first, with
identical outputs. -/
theorem mergeDeterministic_witness :
    Doc.map [("x", Doc.map [("v", Doc.num 1)]), ("components", Doc.map [])] =
      Doc.map [("x", Doc.map [("v", Doc.num 1)]),
        ("components", Doc.map [])] ∧
    Consistent
      { net := [("http://h/a.yaml",
          FetchOutcome.ok (Doc.map [("v", Doc.num 1)]))] }
      [("http://h/a.yaml", Doc.map [("v", Doc.num 1)])] ∧
    Consistent
      { net := [("http://h/a.yaml",
          FetchOutcome.ok (Doc.map [("v", Doc.num 1)]))] }
      [("http://h/a.yaml", Doc.map [("v", Doc.num 1)])] :=
  mergeDeterministic
    { net := [("http://h/a.yaml", FetchOutcome.ok (Doc.map [("v", Doc.num 1)]))] }
    {} 10 Cache.empty
    (Doc.map [("x", Doc.map [("$include", Doc.str "http://h/a.yaml")])])
    "/d/r.yaml"
    (Doc.map [("x", Doc.map [("v", Doc.num 1)]), ("components", Doc.map [])])
    (Doc.map [("x", Doc.map [("v", Doc.num 1)]), ("components", Doc.map [])])
    [("http://h/a.yaml", Doc.map [("v", Doc.num 1)])]
    [("http://h/a.yaml", Doc.map [("v", Doc.num 1)])]
    (fun _ _ h => nomatch h) rfl rfl

/-- Looking up past a prefix without the key. -/
theorem lookup_append_none {α β : Type} [BEq α] (l1 l2 : List (α × β))
    (a : α) (h : List.lookup a l1 = none) :
    List.lookup a (l1 ++ l2) = List.lookup a l2 := by
  induction l1 with
  | nil => rfl
  | cons hd tl ih =>
    obtain ⟨k, b⟩ := hd
    rw [List.lookup] at h
    show List.lookup a ((k, b) :: (tl ++ l2)) = List.lookup a l2
    rw [List.lookup]
    cases hk : a == k with
    | true => rw [hk] at h; exact absurd h (by simp)
    | false => rw [hk] at h; exact ih h

/-- Overwriting the node at one address does not change lookups at any
other address. -/
theorem lookup_write {b : Nat} {nd : SNode} (l : List (Nat × SNode))
    (a : Nat) (hab : a ≠ b) :
    List.lookup a (l.map fun p => if p.1 = b then (b, nd) else p) =
      List.lookup a l := by
  induction l with
  | nil => rfl
  | cons hd tl ih =>
    obtain ⟨k, n⟩ := hd
    simp only [List.map_cons]
    dsimp only
    by_cases hk : k = b
    · subst hk
      rw [if_pos rfl]
      have hak : (a == k) = false := beq_eq_false_iff_ne.mpr hab
      simp only [List.lookup, hak]
      exact ih
    · rw [if_neg hk]
      simp only [List.lookup]
      cases hak : a == k with
      | true => rfl
      | false => exact ih

/-- Allocation only appends fresh nodes: the output store extends the
input store by a tail whose addresses all lie in the newly claimed
region, and every address handed back lies there too. -/
theorem allocSpec : ∀ fuel : Nat,
    (∀ st d a stOut, allocDoc fuel st d = some (a, stOut) →
      (∃ tail, stOut.mem = st.mem ++ tail ∧
        ∀ p ∈ tail, st.next ≤ p.1 ∧ p.1 < stOut.next ∧
          ∀ c ∈ nodeAddrs p.2, c < stOut.next) ∧
      st.next ≤ a ∧ a < stOut.next) ∧
    (∀ st kvs ks stOut, allocKVs fuel st kvs = some (ks, stOut) →
      (∃ tail, stOut.mem = st.mem ++ tail ∧
        ∀ p ∈ tail, st.next ≤ p.1 ∧ p.1 < stOut.next ∧
          ∀ c ∈ nodeAddrs p.2, c < stOut.next) ∧
      (∀ q ∈ ks, st.next ≤ q.2 ∧ q.2 < stOut.next) ∧
      st.next ≤ stOut.next) ∧
    (∀ st xs as stOut, allocArr fuel st xs = some (as, stOut) →
      (∃ tail, stOut.mem = st.mem ++ tail ∧
        ∀ p ∈ tail, st.next ≤ p.1 ∧ p.1 < stOut.next ∧
          ∀ c ∈ nodeAddrs p.2, c < stOut.next) ∧
      (∀ c ∈ as, st.next ≤ c ∧ c < stOut.next) ∧
      st.next ≤ stOut.next) := by
  intro fuel
  induction fuel with
  | zero =>
    refine ⟨?_, ?_, ?_⟩
    · intro st d a stOut h; exact absurd h (by simp [allocDoc])
    · intro st kvs ks stOut h; exact absurd h (by simp [allocKVs])
    · intro st xs as stOut h; exact absurd h (by simp [allocArr])
  | succ n ih =>
    obtain ⟨ihD, ihK, ihA⟩ := ih
    refine ⟨?_, ?_, ?_⟩
    · intro st d a stOut h
      cases d with
      | null =>
        simp only [allocDoc, Option.some.injEq, Prod.mk.injEq] at h
        obtain ⟨ha, hst⟩ := h
        subst ha
        subst hst
        refine ⟨⟨[(st.next, SNode.sval Doc.null)], rfl, ?_⟩, le_refl _,
          Nat.lt_succ_self _⟩
        intro p hp
        rw [List.mem_singleton] at hp
        subst hp
        exact ⟨le_refl _, Nat.lt_succ_self _, fun c hc => by
          simp [nodeAddrs] at hc⟩
      | bool bv =>
        simp only [allocDoc, Option.some.injEq, Prod.mk.injEq] at h
        obtain ⟨ha, hst⟩ := h
        subst ha
        subst hst
        refine ⟨⟨[(st.next, SNode.sval (Doc.bool bv))], rfl, ?_⟩, le_refl _,
          Nat.lt_succ_self _⟩
        intro p hp
        rw [List.mem_singleton] at hp
        subst hp
        exact ⟨le_refl _, Nat.lt_succ_self _, fun c hc => by
          simp [nodeAddrs] at hc⟩
      | num nv =>
        simp only [allocDoc, Option.some.injEq, Prod.mk.injEq] at h
        obtain ⟨ha, hst⟩ := h
        subst ha
        subst hst
        refine ⟨⟨[(st.next, SNode.sval (Doc.num nv))], rfl, ?_⟩, le_refl _,
          Nat.lt_succ_self _⟩
        intro p hp
        rw [List.mem_singleton] at hp
        subst hp
        exact ⟨le_refl _, Nat.lt_succ_self _, fun c hc => by
          simp [nodeAddrs] at hc⟩
      | str sv =>
        simp only [allocDoc, Option.some.injEq, Prod.mk.injEq] at h
        obtain ⟨ha, hst⟩ := h
        subst ha
        subst hst
        refine ⟨⟨[(st.next, SNode.sval (Doc.str sv))], rfl, ?_⟩, le_refl _,
          Nat.lt_succ_self _⟩
        intro p hp
        rw [List.mem_singleton] at hp
        subst hp
        exact ⟨le_refl _, Nat.lt_succ_self _, fun c hc => by
          simp [nodeAddrs] at hc⟩
      | map kvs =>
        simp only [allocDoc] at h
        split at h
        next heq => exact absurd h (by simp)
        next ks st1 heq =>
          simp only [Option.some.injEq, Prod.mk.injEq] at h
          obtain ⟨ha, hst⟩ := h
          subst ha
          subst hst
          obtain ⟨⟨tailK, hmem, htail⟩, hks, hnext⟩ := ihK st kvs ks st1 heq
          refine ⟨⟨tailK ++ [(st1.next, SNode.sobj ks)], ?_, ?_⟩, hnext,
            Nat.lt_succ_self _⟩
          · show st1.mem ++ [(st1.next, SNode.sobj ks)] =
              st.mem ++ (tailK ++ [(st1.next, SNode.sobj ks)])
            rw [hmem, List.append_assoc]
          · intro p hp
            rcases List.mem_append.mp hp with hp | hp
            · obtain ⟨h1, h2, h3⟩ := htail p hp
              exact ⟨h1, Nat.lt_succ_of_lt h2,
                fun c hc => Nat.lt_succ_of_lt (h3 c hc)⟩
            · rw [List.mem_singleton] at hp
              subst hp
              refine ⟨hnext, Nat.lt_succ_self _, ?_⟩
              intro c hc
              simp only [nodeAddrs] at hc
              obtain ⟨q, hq, hqc⟩ := List.mem_map.mp hc
              subst hqc
              exact Nat.lt_succ_of_lt (hks q hq).2
      | arr xs =>
        simp only [allocDoc] at h
        split at h
        next heq => exact absurd h (by simp)
        next as st1 heq =>
          simp only [Option.some.injEq, Prod.mk.injEq] at h
          obtain ⟨ha, hst⟩ := h
          subst ha
          subst hst
          obtain ⟨⟨tailA, hmem, htail⟩, has, hnext⟩ := ihA st xs as st1 heq
          refine ⟨⟨tailA ++ [(st1.next, SNode.sarr false as)], ?_, ?_⟩, hnext,
            Nat.lt_succ_self _⟩
          · show st1.mem ++ [(st1.next, SNode.sarr false as)] =
              st.mem ++ (tailA ++ [(st1.next, SNode.sarr false as)])
            rw [hmem, List.append_assoc]
          · intro p hp
            rcases List.mem_append.mp hp with hp | hp
            · obtain ⟨h1, h2, h3⟩ := htail p hp
              exact ⟨h1, Nat.lt_succ_of_lt h2,
                fun c hc => Nat.lt_succ_of_lt (h3 c hc)⟩
            · rw [List.mem_singleton] at hp
              subst hp
              refine ⟨hnext, Nat.lt_succ_self _, ?_⟩
              intro c hc
              simp only [nodeAddrs] at hc
              exact Nat.lt_succ_of_lt (has c hc).2
      | iarr xs =>
        simp only [allocDoc] at h
        split at h
        next heq => exact absurd h (by simp)
        next as st1 heq =>
          simp only [Option.some.injEq, Prod.mk.injEq] at h
          obtain ⟨ha, hst⟩ := h
          subst ha
          subst hst
          obtain ⟨⟨tailA, hmem, htail⟩, has, hnext⟩ := ihA st xs as st1 heq
          refine ⟨⟨tailA ++ [(st1.next, SNode.sarr true as)], ?_, ?_⟩, hnext,
            Nat.lt_succ_self _⟩
          · show st1.mem ++ [(st1.next, SNode.sarr true as)] =
              st.mem ++ (tailA ++ [(st1.next, SNode.sarr true as)])
            rw [hmem, List.append_assoc]
          · intro p hp
            rcases List.mem_append.mp hp with hp | hp
            · obtain ⟨h1, h2, h3⟩ := htail p hp
              exact ⟨h1, Nat.lt_succ_of_lt h2,
                fun c hc => Nat.lt_succ_of_lt (h3 c hc)⟩
            · rw [List.mem_singleton] at hp
              subst hp
              refine ⟨hnext, Nat.lt_succ_self _, ?_⟩
              intro c hc
              simp only [nodeAddrs] at hc
              exact Nat.lt_succ_of_lt (has c hc).2
    · intro st kvs ks stOut h
      cases kvs with
      | nil =>
        simp only [allocKVs, Option.some.injEq, Prod.mk.injEq] at h
        obtain ⟨hks, hst⟩ := h
        subst hks
        subst hst
        exact ⟨⟨[], by simp, by simp⟩, by simp, le_refl _⟩
      | cons kv rest =>
        obtain ⟨k, v⟩ := kv
        simp only [allocKVs] at h
        split at h
        next heq => exact absurd h (by simp)
        next a1 st1 heq1 =>
          split at h
          next heq => exact absurd h (by simp)
          next ks2 st3 heq2 =>
            simp only [Option.some.injEq, Prod.mk.injEq] at h
            obtain ⟨hks, hst⟩ := h
            subst hks
            subst hst
            obtain ⟨⟨tail1, hmem1, htail1⟩, ha1, ha1b⟩ := ihD st v a1 st1 heq1
            obtain ⟨⟨tail2, hmem2, htail2⟩, hks2, hnext2⟩ :=
              ihK st1 rest ks2 st3 heq2
            refine ⟨⟨tail1 ++ tail2, ?_, ?_⟩, ?_, by omega⟩
            · rw [hmem2, hmem1, List.append_assoc]
            · intro p hp
              rcases List.mem_append.mp hp with hp | hp
              · obtain ⟨h1, h2, h3⟩ := htail1 p hp
                exact ⟨h1, by omega, fun c hc => by have := h3 c hc; omega⟩
              · obtain ⟨h1, h2, h3⟩ := htail2 p hp
                exact ⟨by omega, h2, h3⟩
            · intro q hq
              rcases List.mem_cons.mp hq with hq | hq
              · subst hq
                exact ⟨ha1, by omega⟩
              · have := hks2 q hq
                exact ⟨by omega, this.2⟩
    · intro st xs as stOut h
      cases xs with
      | nil =>
        simp only [allocArr, Option.some.injEq, Prod.mk.injEq] at h
        obtain ⟨has, hst⟩ := h
        subst has
        subst hst
        exact ⟨⟨[], by simp, by simp⟩, by simp, le_refl _⟩
      | cons v rest =>
        simp only [allocArr] at h
        split at h
        next heq => exact absurd h (by simp)
        next a1 st1 heq1 =>
          split at h
          next heq => exact absurd h (by simp)
          next as2 st3 heq2 =>
            simp only [Option.some.injEq, Prod.mk.injEq] at h
            obtain ⟨has, hst⟩ := h
            subst has
            subst hst
            obtain ⟨⟨tail1, hmem1, htail1⟩, ha1, ha1b⟩ := ihD st v a1 st1 heq1
            obtain ⟨⟨tail2, hmem2, htail2⟩, has2, hnext2⟩ :=
              ihA st1 rest as2 st3 heq2
            refine ⟨⟨tail1 ++ tail2, ?_, ?_⟩, ?_, by omega⟩
            · rw [hmem2, hmem1, List.append_assoc]
            · intro p hp
              rcases List.mem_append.mp hp with hp | hp
              · obtain ⟨h1, h2, h3⟩ := htail1 p hp
                exact ⟨h1, by omega, fun c hc => by have := h3 c hc; omega⟩
              · obtain ⟨h1, h2, h3⟩ := htail2 p hp
                exact ⟨by omega, h2, h3⟩
            · intro c hc
              rcases List.mem_cons.mp hc with hc | hc
              · subst hc
                exact ⟨ha1, by omega⟩
              · have := has2 c hc
                exact ⟨by omega, this.2⟩

/-- Reading is monotone under store extension: a document readable
before an allocation reads back unchanged afterwards. -/
theorem readMono : ∀ fuel : Nat,
    (∀ mem tail nx nx2 a d, readDoc fuel ⟨mem, nx⟩ a = some d →
      readDoc fuel ⟨mem ++ tail, nx2⟩ a = some d) ∧
    (∀ mem tail nx nx2 ks kvs, readKVs fuel ⟨mem, nx⟩ ks = some kvs →
      readKVs fuel ⟨mem ++ tail, nx2⟩ ks = some kvs) ∧
    (∀ mem tail nx nx2 as xs, readArr fuel ⟨mem, nx⟩ as = some xs →
      readArr fuel ⟨mem ++ tail, nx2⟩ as = some xs) := by
  intro fuel
  induction fuel with
  | zero =>
    refine ⟨?_, ?_, ?_⟩
    · intro mem tail nx nx2 a d h; exact absurd h (by simp [readDoc])
    · intro mem tail nx nx2 ks kvs h; exact absurd h (by simp [readKVs])
    · intro mem tail nx nx2 as xs h; exact absurd h (by simp [readArr])
  | succ n ih =>
    obtain ⟨ihD, ihK, ihA⟩ := ih
    refine ⟨?_, ?_, ?_⟩
    · intro mem tail nx nx2 a d h
      simp only [readDoc] at h ⊢
      split at h
      next heq => exact absurd h (by simp)
      next s heq =>
        rw [lookup_append_left _ _ _ (by simp [heq]), heq]
        dsimp only
        exact h
      next ks heq =>
        rw [lookup_append_left _ _ _ (by simp [heq]), heq]
        dsimp only
        split at h
        next heq2 => exact absurd h (by simp)
        next kvs heq2 =>
          rw [ihK mem tail nx nx2 ks kvs heq2]
          exact h
      next as heq =>
        rw [lookup_append_left _ _ _ (by simp [heq]), heq]
        dsimp only
        split at h
        next heq2 => exact absurd h (by simp)
        next xs heq2 =>
          rw [ihA mem tail nx nx2 as xs heq2]
          exact h
      next as heq =>
        rw [lookup_append_left _ _ _ (by simp [heq]), heq]
        dsimp only
        split at h
        next heq2 => exact absurd h (by simp)
        next xs heq2 =>
          rw [ihA mem tail nx nx2 as xs heq2]
          exact h
    · intro mem tail nx nx2 ks kvs h
      cases ks with
      | nil => simpa [readKVs] using h
      | cons ka rest =>
        obtain ⟨k, a⟩ := ka
        simp only [readKVs] at h ⊢
        split at h
        next heq => exact absurd h (by simp)
        next d heq =>
          rw [ihD mem tail nx nx2 a d heq]
          split at h
          next heq2 => exact absurd h (by simp)
          next kvs2 heq2 =>
            rw [ihK mem tail nx nx2 rest kvs2 heq2]
            exact h
    · intro mem tail nx nx2 as xs h
      cases as with
      | nil => simpa [readArr] using h
      | cons a rest =>
        simp only [readArr] at h ⊢
        split at h
        next heq => exact absurd h (by simp)
        next d heq =>
          rw [ihD mem tail nx nx2 a d heq]
          split at h
          next heq2 => exact absurd h (by simp)
          next xs2 heq2 =>
            rw [ihA mem tail nx nx2 rest xs2 heq2]
            exact h

/-- No node is stored at or above the allocation frontier. -/
theorem lookup_ge_none {l : List (Nat × SNode)} {N a : Nat}
    (h : ∀ p ∈ l, p.1 < N) (ha : N ≤ a) : List.lookup a l = none := by
  induction l with
  | nil => rfl
  | cons hd tl ih =>
    obtain ⟨k, n⟩ := hd
    have hk : k < N := by simpa using h (k, n) (by simp)
    have hne : (a == k) = false := beq_eq_false_iff_ne.mpr (by omega)
    simp only [List.lookup, hne]
    exact ih fun p hp => h p (List.mem_cons_of_mem _ hp)

/-- Extending a store whose keys are below the frontier with a tail
that satisfies the allocation bounds keeps all keys below the new
frontier. -/
theorem keysLt_extend {st stOut : Store} {tail : List (Nat × SNode)}
    (hK : ∀ p ∈ st.mem, p.1 < st.next)
    (hmem : stOut.mem = st.mem ++ tail)
    (htail : ∀ p ∈ tail, st.next ≤ p.1 ∧ p.1 < stOut.next ∧
      ∀ c ∈ nodeAddrs p.2, c < stOut.next)
    (hle : st.next ≤ stOut.next) :
    ∀ p ∈ stOut.mem, p.1 < stOut.next := by
  intro p hp
  rw [hmem] at hp
  rcases List.mem_append.mp hp with hp | hp
  · exact lt_of_lt_of_le (hK p hp) hle
  · exact (htail p hp).2.1

/-- Allocation round-trips: reading the root address written by
`allocDoc` yields exactly the allocated document (the clone is a
faithful deep copy). -/
theorem allocRoundTrip : ∀ fuel : Nat,
    (∀ st d a stOut, (∀ p ∈ st.mem, p.1 < st.next) →
      allocDoc fuel st d = some (a, stOut) →
      readDoc fuel stOut a = some d) ∧
    (∀ st kvs ks stOut, (∀ p ∈ st.mem, p.1 < st.next) →
      allocKVs fuel st kvs = some (ks, stOut) →
      readKVs fuel stOut ks = some kvs) ∧
    (∀ st xs as stOut, (∀ p ∈ st.mem, p.1 < st.next) →
      allocArr fuel st xs = some (as, stOut) →
      readArr fuel stOut as = some xs) := by
  intro fuel
  induction fuel with
  | zero =>
    refine ⟨?_, ?_, ?_⟩
    · intro st d a stOut hK h; exact absurd h (by simp [allocDoc])
    · intro st kvs ks stOut hK h; exact absurd h (by simp [allocKVs])
    · intro st xs as stOut hK h; exact absurd h (by simp [allocArr])
  | succ n ih =>
    obtain ⟨ihD, ihK, ihA⟩ := ih
    refine ⟨?_, ?_, ?_⟩
    · intro st d a stOut hK h
      cases d with
      | null =>
        simp only [allocDoc, Option.some.injEq, Prod.mk.injEq] at h
        obtain ⟨ha, hst⟩ := h
        subst ha
        subst hst
        simp only [readDoc]
        rw [lookup_append_none _ _ _ (lookup_ge_none hK (le_refl _))]
        simp [List.lookup]
      | bool bv =>
        simp only [allocDoc, Option.some.injEq, Prod.mk.injEq] at h
        obtain ⟨ha, hst⟩ := h
        subst ha
        subst hst
        simp only [readDoc]
        rw [lookup_append_none _ _ _ (lookup_ge_none hK (le_refl _))]
        simp [List.lookup]
      | num nv =>
        simp only [allocDoc, Option.some.injEq, Prod.mk.injEq] at h
        obtain ⟨ha, hst⟩ := h
        subst ha
        subst hst
        simp only [readDoc]
        rw [lookup_append_none _ _ _ (lookup_ge_none hK (le_refl _))]
        simp [List.lookup]
      | str sv =>
        simp only [allocDoc, Option.some.injEq, Prod.mk.injEq] at h
        obtain ⟨ha, hst⟩ := h
        subst ha
        subst hst
        simp only [readDoc]
        rw [lookup_append_none _ _ _ (lookup_ge_none hK (le_refl _))]
        simp [List.lookup]
      | map kvs =>
        simp only [allocDoc] at h
        split at h
        next heq => exact absurd h (by simp)
        next ks st1 heq =>
          simp only [Option.some.injEq, Prod.mk.injEq] at h
          obtain ⟨ha, hst⟩ := h
          subst ha
          subst hst
          obtain ⟨⟨tailK, hmem, htail⟩, hks, hnext⟩ :=
            ((allocSpec n).2.1) st kvs ks st1 heq
          have hK1 : ∀ p ∈ st1.mem, p.1 < st1.next :=
            keysLt_extend hK hmem htail hnext
          have hread : readKVs n st1 ks = some kvs := ihK st kvs ks st1 hK heq
          simp only [readDoc]
          rw [lookup_append_none _ _ _ (lookup_ge_none hK1 (le_refl _))]
          simp only [List.lookup, beq_self_eq_true]
          rw [(readMono n).2.1 st1.mem [(st1.next, SNode.sobj ks)]
            st1.next (st1.next + 1) ks kvs hread]
      | arr xs =>
        simp only [allocDoc] at h
        split at h
        next heq => exact absurd h (by simp)
        next as st1 heq =>
          simp only [Option.some.injEq, Prod.mk.injEq] at h
          obtain ⟨ha, hst⟩ := h
          subst ha
          subst hst
          obtain ⟨⟨tailA, hmem, htail⟩, has, hnext⟩ :=
            ((allocSpec n).2.2) st xs as st1 heq
          have hK1 : ∀ p ∈ st1.mem, p.1 < st1.next :=
            keysLt_extend hK hmem htail hnext
          have hread : readArr n st1 as = some xs := ihA st xs as st1 hK heq
          simp only [readDoc]
          rw [lookup_append_none _ _ _ (lookup_ge_none hK1 (le_refl _))]
          simp only [List.lookup, beq_self_eq_true]
          rw [(readMono n).2.2 st1.mem [(st1.next, SNode.sarr false as)]
            st1.next (st1.next + 1) as xs hread]
      | iarr xs =>
        simp only [allocDoc] at h
        split at h
        next heq => exact absurd h (by simp)
        next as st1 heq =>
          simp only [Option.some.injEq, Prod.mk.injEq] at h
          obtain ⟨ha, hst⟩ := h
          subst ha
          subst hst
          obtain ⟨⟨tailA, hmem, htail⟩, has, hnext⟩ :=
            ((allocSpec n).2.2) st xs as st1 heq
          have hK1 : ∀ p ∈ st1.mem, p.1 < st1.next :=
            keysLt_extend hK hmem htail hnext
          have hread : readArr n st1 as = some xs := ihA st xs as st1 hK heq
          simp only [readDoc]
          rw [lookup_append_none _ _ _ (lookup_ge_none hK1 (le_refl _))]
          simp only [List.lookup, beq_self_eq_true]
          rw [(readMono n).2.2 st1.mem [(st1.next, SNode.sarr true as)]
            st1.next (st1.next + 1) as xs hread]
    · intro st kvs ks stOut hK h
      cases kvs with
      | nil =>
        simp only [allocKVs, Option.some.injEq, Prod.mk.injEq] at h
        obtain ⟨hks, hst⟩ := h
        subst hks
        subst hst
        rfl
      | cons kv rest =>
        obtain ⟨k, v⟩ := kv
        simp only [allocKVs] at h
        split at h
        next heq => exact absurd h (by simp)
        next a1 st1 heq1 =>
          split at h
          next heq => exact absurd h (by simp)
          next ks2 st3 heq2 =>
            simp only [Option.some.injEq, Prod.mk.injEq] at h
            obtain ⟨hks, hst⟩ := h
            subst hks
            subst hst
            obtain ⟨⟨tail1, hmem1, htail1⟩, ha1, ha1b⟩ :=
              ((allocSpec n).1) st v a1 st1 heq1
            obtain ⟨⟨tail2, hmem2, htail2⟩, hks2, hnext2⟩ :=
              ((allocSpec n).2.1) st1 rest ks2 st3 heq2
            have hK1 : ∀ p ∈ st1.mem, p.1 < st1.next :=
              keysLt_extend hK hmem1 htail1 (by omega)
            have hrd : readDoc n st1 a1 = some v := ihD st v a1 st1 hK heq1
            have hrd3 : readDoc n st3 a1 = some v := by
              have := (readMono n).1 st1.mem tail2 st1.next st3.next a1 v hrd
              rw [← hmem2] at this
              exact this
            have hrk : readKVs n st3 ks2 = some rest :=
              ihK st1 rest ks2 st3 hK1 heq2
            simp only [readKVs]
            rw [hrd3]
            dsimp only
            rw [hrk]
    · intro st xs as stOut hK h
      cases xs with
      | nil =>
        simp only [allocArr, Option.some.injEq, Prod.mk.injEq] at h
        obtain ⟨has, hst⟩ := h
        subst has
        subst hst
        rfl
      | cons v rest =>
        simp only [allocArr] at h
        split at h
        next heq => exact absurd h (by simp)
        next a1 st1 heq1 =>
          split at h
          next heq => exact absurd h (by simp)
          next as2 st3 heq2 =>
            simp only [Option.some.injEq, Prod.mk.injEq] at h
            obtain ⟨has, hst⟩ := h
            subst has
            subst hst
            obtain ⟨⟨tail1, hmem1, htail1⟩, ha1, ha1b⟩ :=
              ((allocSpec n).1) st v a1 st1 heq1
            obtain ⟨⟨tail2, hmem2, htail2⟩, has2, hnext2⟩ :=
              ((allocSpec n).2.2) st1 rest as2 st3 heq2
            have hK1 : ∀ p ∈ st1.mem, p.1 < st1.next :=
              keysLt_extend hK hmem1 htail1 (by omega)
            have hrd : readDoc n st1 a1 = some v := ihD st v a1 st1 hK heq1
            have hrd3 : readDoc n st3 a1 = some v := by
              have := (readMono n).1 st1.mem tail2 st1.next st3.next a1 v hrd
              rw [← hmem2] at this
              exact this
            have hrk : readArr n st3 as2 = some rest :=
              ihA st1 rest as2 st3 hK1 heq2
            simp only [readArr]
            rw [hrd3]
            dsimp only
            rw [hrk]

/-- Mutating one address leaves lookups at every other address
alone. -/
theorem lookup_writeStore {st : Store} {b : Nat} {nd : SNode} (a : Nat)
    (hab : a ≠ b) :
    List.lookup a (writeStore st b nd).mem = List.lookup a st.mem :=
  lookup_write st.mem a hab

/-- The frame property: mutating any address at or above `N` cannot
change the value read from a document that lives in the closed region
below `N`. -/
theorem readFrame : ∀ fuel : Nat,
    (∀ st N b nd a, ClosedBelow st N → a < N → N ≤ b →
      readDoc fuel (writeStore st b nd) a = readDoc fuel st a) ∧
    (∀ st N b nd ks, ClosedBelow st N → (∀ q ∈ ks, q.2 < N) → N ≤ b →
      readKVs fuel (writeStore st b nd) ks = readKVs fuel st ks) ∧
    (∀ st N b nd as, ClosedBelow st N → (∀ c ∈ as, c < N) → N ≤ b →
      readArr fuel (writeStore st b nd) as = readArr fuel st as) := by
  intro fuel
  induction fuel with
  | zero => exact ⟨fun _ _ _ _ _ _ _ _ => rfl, fun _ _ _ _ _ _ _ _ => rfl,
      fun _ _ _ _ _ _ _ _ => rfl⟩
  | succ n ih =>
    obtain ⟨ihD, ihK, ihA⟩ := ih
    refine ⟨?_, ?_, ?_⟩
    · intro st N b nd a hcb ha hb
      simp only [readDoc]
      rw [lookup_writeStore a (by omega)]
      split
      next => rfl
      next s heq => rfl
      next ks heq =>
        rw [ihK st N b nd ks hcb ?_ hb]
        intro q hq
        exact hcb a (SNode.sobj ks) heq ha q.2 (List.mem_map_of_mem _ hq)
      next as heq =>
        rw [ihA st N b nd as hcb ?_ hb]
        intro c hc
        exact hcb a (SNode.sarr false as) heq ha c hc
      next as heq =>
        rw [ihA st N b nd as hcb ?_ hb]
        intro c hc
        exact hcb a (SNode.sarr true as) heq ha c hc
    · intro st N b nd ks hcb hks hb
      cases ks with
      | nil => rfl
      | cons ka rest =>
        obtain ⟨k, a⟩ := ka
        simp only [readKVs]
        rw [ihD st N b nd a hcb (by simpa using hks (k, a) (by simp)) hb]
        rw [ihK st N b nd rest hcb
          (fun q hq => hks q (List.mem_cons_of_mem _ hq)) hb]
    · intro st N b nd as hcb has hb
      cases as with
      | nil => rfl
      | cons a rest =>
        simp only [readArr]
        rw [ihD st N b nd a hcb (has a (by simp)) hb]
        rw [ihA st N b nd rest hcb
          (fun c hc => has c (List.mem_cons_of_mem _ hc)) hb]

/-- After allocating on top of a well-formed store, the old region is
closed: nodes below the old frontier still only point below it. -/
theorem closedBelow_extend {st stOut : Store} {tail : List (Nat × SNode)}
    (hwf : Wf st)
    (hmem : stOut.mem = st.mem ++ tail)
    (htailKeys : ∀ p ∈ tail, st.next ≤ p.1) :
    ClosedBelow stOut st.next := by
  intro a nd hl ha
  rw [hmem] at hl
  cases hl0 : List.lookup a st.mem with
  | some nd0 =>
    rw [lookup_append_left _ _ _ (by simp [hl0]), hl0] at hl
    injection hl with hnd
    rw [hnd] at hl0
    exact (hwf (a, nd) (lookup_mem hl0)).2
  | none =>
    rw [lookup_append_none _ _ _ hl0] at hl
    have hge := htailKeys (a, nd) (lookup_mem hl)
    exact absurd ha (by simpa using hge)

/-- Allocation preserves store well-formedness. -/
theorem wf_alloc {fuel : Nat} {st : Store} {d : Doc} {a : Nat}
    {stOut : Store}
    (hwf : Wf st) (h : allocDoc fuel st d = some (a, stOut)) : Wf stOut := by
  obtain ⟨⟨tail, hmem, htail⟩, ha, hab⟩ := (allocSpec fuel).1 st d a stOut h
  intro p hp
  rw [hmem] at hp
  rcases List.mem_append.mp hp with hp | hp
  · obtain ⟨h1, h2⟩ := hwf p hp
    exact ⟨by omega, fun c hc => by have := h2 c hc; omega⟩
  · obtain ⟨h1, h2, h3⟩ := htail p hp
    exact ⟨h2, h3⟩

/-- **C10**: `download` hands out a deep clone, never the cached
object itself.  Whenever `downloadS` succeeds and the URL is cached
(at address `a0`), there is a boundary `B` with the cached document
entirely below `B` and the returned root `a1` at or above `B`; the
returned address reads back exactly the same document value `d` as
the cached address (the clone is faithful), and overwriting any
address at or above `B` - in particular any node of the returned
document - leaves every read of the cached address unchanged:
mutating the document returned by one call cannot change the document
a later call to `download` observes. -/
theorem downloadClone (u : Univ) (fuel : Nat) (st : Store)
    (cache : List (String × Nat)) (url : String) (a1 : Nat) (st2 : Store)
    (cache2 : List (String × Nat)) (a0 : Nat)
    (hwf : Wf st)
    (hcv : ∀ p ∈ cache, p.2 < st.next)
    (hdl : downloadS u fuel st cache url = some (a1, st2, cache2))
    (hcached : List.lookup url cache2 = some a0) :
    ∃ B d,
      st.next ≤ B ∧ B ≤ a1 ∧ a0 < B ∧
      readDoc fuel st2 a1 = some d ∧
      readDoc fuel st2 a0 = some d ∧
      (∀ b nd g, B ≤ b →
        readDoc g (writeStore st2 b nd) a0 = readDoc g st2 a0) ∧
      Wf st2 := by
  simp only [downloadS] at hdl
  split at hdl
  next a0c heqc =>
    -- cache hit
    split at hdl
    next => exact absurd hdl (by simp)
    next d heqr =>
      split at hdl
      next => exact absurd hdl (by simp)
      next a1c st1 heqa =>
        simp only [Option.some.injEq, Prod.mk.injEq] at hdl
        obtain ⟨ha1, hst, hcache⟩ := hdl
        subst ha1
        subst hst
        subst hcache
        rw [heqc] at hcached
        cases hcached
        obtain ⟨⟨tail, hmem, htail⟩, haB, hab⟩ :=
          (allocSpec fuel).1 st d a1c st1 heqa
        refine ⟨st.next, d, le_refl _, haB, ?_, ?_, ?_, ?_, ?_⟩
        · exact hcv (url, a0) (lookup_mem heqc)
        · exact (allocRoundTrip fuel).1 st d a1c st1
            (fun p hp => (hwf p hp).1) heqa
        · have hm := (readMono fuel).1 st.mem tail st.next st1.next a0 d heqr
          rw [← hmem] at hm
          exact hm
        · intro b nd g hBb
          exact (readFrame g).1 st1 st.next b nd a0
            (closedBelow_extend hwf hmem (fun p hp => (htail p hp).1))
            (hcv (url, a0) (lookup_mem heqc)) hBb
        · exact wf_alloc hwf heqa
  next heqc =>
    split at hdl
    next d heqf =>
      -- fetch success
      split at hdl
      next => exact absurd hdl (by simp)
      next a0c st1 heqa0 =>
        split at hdl
        next => exact absurd hdl (by simp)
        next a1c st2c heqa1 =>
          simp only [Option.some.injEq, Prod.mk.injEq] at hdl
          obtain ⟨ha1, hst, hcache⟩ := hdl
          subst ha1
          subst hst
          subst hcache
          rw [show List.lookup url ((url, a0c) :: cache) = some a0c by
            simp [List.lookup]] at hcached
          cases hcached
          obtain ⟨⟨tail0, hmem0, htail0⟩, haB0, hab0⟩ :=
            (allocSpec fuel).1 st d a0 st1 heqa0
          obtain ⟨⟨tail1, hmem1, htail1⟩, haB1, hab1⟩ :=
            (allocSpec fuel).1 st1 d a1c st2c heqa1
          have hwf1 : Wf st1 := wf_alloc hwf heqa0
          refine ⟨st1.next, d, by omega, haB1, hab0, ?_, ?_, ?_, ?_⟩
          · exact (allocRoundTrip fuel).1 st1 d a1c st2c
              (fun p hp => (hwf1 p hp).1) heqa1
          · have hrd1 : readDoc fuel st1 a0 = some d :=
              (allocRoundTrip fuel).1 st d a0 st1
                (fun p hp => (hwf p hp).1) heqa0
            have hm := (readMono fuel).1 st1.mem tail1 st1.next st2c.next
              a0 d hrd1
            rw [← hmem1] at hm
            exact hm
          · intro b nd g hBb
            exact (readFrame g).1 st2c st1.next b nd a0
              (closedBelow_extend hwf1 hmem1 (fun p hp => (htail1 p hp).1))
              hab0 hBb
          · exact wf_alloc hwf1 heqa1
    next heqf =>
      -- fetch failure: nothing is cached, contradicting the hypothesis
      split at hdl
      next => exact absurd hdl (by simp)
      next a1c st1 heqa =>
        simp only [Option.some.injEq, Prod.mk.injEq] at hdl
        obtain ⟨ha1, hst, hcache⟩ := hdl
        subst hcache
        rw [heqc] at hcached
        exact absurd hcached (by simp)

/-- Witness for C10: a concrete fetch of `{k: 1}`.  The document is
cached at address 1 (below the boundary 2), the returned clone is
rooted at address 3, both read back `{k: 1}`, and writes at or above
the boundary never change the cached read. -/
theorem downloadClone_witness :
    ∃ B d, (0 : Nat) ≤ B ∧ B ≤ 3 ∧ 1 < B ∧
      readDoc 5
        ⟨[(0, SNode.sval (Doc.num 1)), (1, SNode.sobj [("k", 0)]),
          (2, SNode.sval (Doc.num 1)), (3, SNode.sobj [("k", 2)])], 4⟩
        3 = some d ∧
      readDoc 5
        ⟨[(0, SNode.sval (Doc.num 1)), (1, SNode.sobj [("k", 0)]),
          (2, SNode.sval (Doc.num 1)), (3, SNode.sobj [("k", 2)])], 4⟩
        1 = some d ∧
      (∀ b nd g, B ≤ b →
        readDoc g
          (writeStore
            ⟨[(0, SNode.sval (Doc.num 1)), (1, SNode.sobj [("k", 0)]),
              (2, SNode.sval (Doc.num 1)), (3, SNode.sobj [("k", 2)])], 4⟩
            b nd) 1 =
        readDoc g
          ⟨[(0, SNode.sval (Doc.num 1)), (1, SNode.sobj [("k", 0)]),
            (2, SNode.sval (Doc.num 1)), (3, SNode.sobj [("k", 2)])], 4⟩
          1) ∧
      Wf ⟨[(0, SNode.sval (Doc.num 1)), (1, SNode.sobj [("k", 0)]),
          (2, SNode.sval (Doc.num 1)), (3, SNode.sobj [("k", 2)])], 4⟩ :=
  downloadClone
    { net := [("http://h/a.yaml", FetchOutcome.ok (Doc.map [("k", Doc.num 1)]))] }
    5 ⟨[], 0⟩ [] "http://h/a.yaml" 3
    ⟨[(0, SNode.sval (Doc.num 1)), (1, SNode.sobj [("k", 0)]),
      (2, SNode.sval (Doc.num 1)), (3, SNode.sobj [("k", 2)])], 4⟩
    [("http://h/a.yaml", 1)] 1
    (fun _ hp => nomatch hp) (fun _ hp => nomatch hp) rfl rfl
